import Mathlib

/-!
# Verification of the Rule-190 MIDI renderer (`rule190.py`)

This file gives a shallow embedding of the core of `rule190.py`:

* the Rule-190 cellular-automaton update under the toroidal and the
  fixed-zero boundary policies,
* the anchored integer encoding of a row and the closed-form recurrence
  used for validation,
* the MIDI event scheduler (`schedule_events`) with its two performance
  modes (sustain / staccato), the final sort of the event list and the
  delta-time serialization into a track.

Python machine integers are unbounded, so they are modelled by `ℤ` / `ℕ`.
Python floats are modelled by exact rationals `ℚ` (the float rounding of
the gate arithmetic is idealized; the structural properties proved here do
not depend on it).  `int(x)` on a float (truncation toward zero) is
`pythonInt`.  The Python `set` used for the active notes is modelled by a
duplicate-free list with Python's `add` / `discard` / membership
operations; `sorted(...)` is an insertion sort.  The `mido` message
objects are modelled as plain data (`MidoMsg`); `mido.bpm2tempo` is
`round (6e7 / bpm)`.  A `ZeroDivisionError` raised before the simulation
loop is modelled with `Except String`.
-/

/-! ## Rule engine -/

/-- The Rule-190 lookup table, `RULE190` in the source: a dictionary from
the 3-bit key `(l<<2)|(c<<1)|r` to the next state. -/
def RULE190 (k : ℕ) : ℕ :=
  if k = 0b111 then 1 else if k = 0b110 then 0 else
  if k = 0b101 then 1 else if k = 0b100 then 1 else
  if k = 0b011 then 1 else if k = 0b010 then 1 else
  if k = 0b001 then 1 else 0

/-- `next_rule190_toroidal(row)`: one automaton step with wrap-around
neighbors; Python's `(i - 1) % W` on ints is `Int.emod`. -/
def next_rule190_toroidal (row : List ℕ) : List ℕ :=
  (List.range row.length).map (fun (i : ℕ) =>
    RULE190 (((row.getD ((((i : ℤ) - 1) % (row.length : ℤ)).toNat) 0) <<< 2) |||
             ((row.getD i 0) <<< 1) |||
             (row.getD ((((i : ℤ) + 1) % (row.length : ℤ)).toNat) 0)))

/-- `next_rule190_fixed0(row)`: one automaton step, out-of-range
neighbors read as `0`. -/
def next_rule190_fixed0 (row : List ℕ) : List ℕ :=
  (List.range row.length).map (fun (i : ℕ) =>
    RULE190 (((if 0 < i then row.getD (i - 1) 0 else 0) <<< 2) |||
             ((row.getD i 0) <<< 1) |||
             (if i < row.length - 1 then row.getD (i + 1) 0 else 0)))

/-- The Rule-190 transition table exactly as the specification prints it:
`111→1, 110→0, 101→1, 100→1, 011→1, 010→1, 001→1, 000→0`. -/
def rule190table (l c r : ℕ) : ℕ :=
  if l = 1 then (if c = 1 then (if r = 1 then 1 else 0) else 1)
  else (if c = 1 then 1 else (if r = 1 then 1 else 0))

/-! ## Validation math -/

/-- The scan `for i in range(len(row)-1, -1, -1): if row[i]: idx = i; break`
inside `row_to_int_anchor_rightmost`; the argument is the number of cells
still to scan, the result is the index of the rightmost nonzero cell, or
`-1` when every cell is zero. -/
def rmoAux (row : List ℕ) : ℕ → ℤ
  | 0 => -1
  | k + 1 => if row.getD k 0 ≠ 0 then (k : ℤ) else rmoAux row k

/-- The packing loop `for k in range(idx, -1, -1): if row[k]: x |= 1 << bit;
bit += 1`; the first argument counts the remaining cells `k-1, …, 0`. -/
def packAux (row : List ℕ) : ℕ → ℕ → ℕ → ℕ
  | 0, _, x => x
  | k + 1, bit, x =>
      packAux row k (bit + 1) (if row.getD k 0 ≠ 0 then x ||| (1 <<< bit) else x)

/-- `row_to_int_anchor_rightmost(row)`: anchor the rightmost `1` at bit 0
and pack every bit at or to the left of it into an integer. -/
def row_to_int_anchor_rightmost (row : List ℕ) : ℕ :=
  let idx := rmoAux row row.length
  if idx = -1 then 0 else packAux row (idx.toNat + 1) 0 0

/-- `4*a[-1] + a[-2] - 4*a[-3]` on the accumulated list. -/
def seqNext (acc : List ℤ) : ℤ :=
  4 * acc.getD (acc.length - 1) 0 + acc.getD (acc.length - 2) 0 -
    4 * acc.getD (acc.length - 3) 0

/-- The loop `for _ in range(3, n): a.append(...)` of
`rule190_single_one_sequence`; the first argument is the number of
remaining iterations. -/
def seqLoop : ℕ → List ℤ → List ℤ
  | 0, acc => acc
  | k + 1, acc => seqLoop k (acc ++ [seqNext acc])

/-- `rule190_single_one_sequence(n)`: the closed-form sequence
`a0=1, a1=7, a2=29, a_t = 4a_{t-1} + a_{t-2} - 4a_{t-3}` (first `n`
terms). -/
def rule190_single_one_sequence (n : ℕ) : List ℤ :=
  if n = 0 then []
  else if n = 1 then [1]
  else if n = 2 then [1, 7]
  else (seqLoop (n - 3) [1, 7, 29]).take n

/-- The validation seed built by the driver: a row of width `W` that is
zero except for a single `1` at the center index `W / 2`. -/
def singleOneRow (W : ℕ) : List ℕ :=
  (List.range W).map (fun j => if j = W / 2 then 1 else 0)

/-! ## MIDI data model -/

/-- A `mido` message as far as this script constructs them:
`MetaMessage('set_tempo', ...)`, `Message('note_on', ...)` and
`Message('note_off', ...)`, each with its delta-`time` field. -/
inductive MidoMsg where
  | setTempo (tempo : ℤ) (time : ℤ)
  | noteOn (channel : ℕ) (note : ℤ) (velocity : ℕ) (time : ℤ)
  | noteOff (channel : ℕ) (note : ℤ) (velocity : ℕ) (time : ℤ)
deriving DecidableEq

/-- A scheduled event: absolute tick paired with the message. -/
abbrev Ev := ℤ × MidoMsg

/-- The `RenderConfig` dataclass. -/
structure RenderConfig where
  bpm : ℤ
  ppq : ℤ
  q : ℤ
  gate : Option ℚ
  filename : String
deriving DecidableEq

/-- Python `int(x)` on a float: truncation toward zero. -/
def pythonInt (x : ℚ) : ℤ := if 0 ≤ x then ⌊x⌋ else -⌊-x⌋

/-- `mido.bpm2tempo(bpm) = int(round(60 * 1e6 / bpm))` (rational
idealization of the float rounding). -/
def bpm2tempo (bpm : ℤ) : ℤ := round ((60000000 : ℚ) / (bpm : ℚ))

/-- `seconds_per_step(cfg) = 60.0 / cfg.bpm * (cfg.q / cfg.ppq)`; a zero
divisor raises `ZeroDivisionError`. -/
def seconds_per_step (cfg : RenderConfig) : Except String ℚ :=
  if cfg.bpm = 0 then .error "ZeroDivisionError"
  else if cfg.ppq = 0 then .error "ZeroDivisionError"
  else .ok ((60 : ℚ) / (cfg.bpm : ℚ) * ((cfg.q : ℚ) / (cfg.ppq : ℚ)))

/-- `steps_for_8_seconds(cfg) = math.floor(8.0 / seconds_per_step(cfg))`. -/
def steps_for_8_seconds (cfg : RenderConfig) : Except String ℤ :=
  match seconds_per_step cfg with
  | .error e => .error e
  | .ok sps => if sps = 0 then .error "ZeroDivisionError" else .ok ⌊(8 : ℚ) / sps⌋

/-! ## Event scheduler -/

/-- Python `set.add` on the duplicate-free list model of
`active_notes`. -/
def addNote (act : List ℤ) (n : ℤ) : List ℤ := if n ∈ act then act else act ++ [n]

/-- The mutable per-iteration state of the `schedule_events` loop. -/
structure SchedState where
  row : List ℕ
  age : List ℕ
  events : List Ev
  active : List ℤ
deriving DecidableEq

/-- The sustain-mode classification loop over the columns: the updated
`age` array (birth: 1, continuation: +1, death: 0, steady-off:
unchanged). -/
def classifyAge (row nxt age : List ℕ) : List ℕ :=
  (List.range row.length).map (fun i =>
    if nxt.getD i 0 = 1 ∧ ¬ row.getD i 0 = 1 then 1
    else if nxt.getD i 0 = 1 ∧ row.getD i 0 = 1 then age.getD i 0 + 1
    else if row.getD i 0 = 1 ∧ ¬ nxt.getD i 0 = 1 then 0
    else age.getD i 0)

/-- The `births` list collected by the classification loop:
`(note, column)` for every `0 → 1` transition, in column order. -/
def birthsOf (scale : List ℤ) (row nxt : List ℕ) : List (ℤ × ℕ) :=
  ((List.range row.length).filter
    (fun i => (nxt.getD i 0 == 1) && !(row.getD i 0 == 1))).map
    (fun i => (scale.getD i 0, i))

/-- The `deaths` list collected by the classification loop:
`(note, column)` for every `1 → 0` transition, in column order. -/
def deathsOf (scale : List ℤ) (row nxt : List ℕ) : List (ℤ × ℕ) :=
  ((List.range row.length).filter
    (fun i => (row.getD i 0 == 1) && !(nxt.getD i 0 == 1))).map
    (fun i => (scale.getD i 0, i))

/-- The sustain-mode deaths loop: a `note_off` at the base tick for each
death whose note is currently active, which is then discarded from the
active set. -/
def emitDeaths (base : ℤ) : List (ℤ × ℕ) → List Ev → List ℤ → List Ev × List ℤ
  | [], evs, act => (evs, act)
  | d :: rest, evs, act =>
      if d.1 ∈ act then
        emitDeaths base rest (evs ++ [(base, .noteOff 0 d.1 0 0)]) (act.erase d.1)
      else emitDeaths base rest evs act

/-- The sustain-mode births loop: a `note_on` at the base tick with
velocity `min(30 + 10*age[idx], 110)` for every birth; the note is added
to the active set. -/
def emitBirths (base : ℤ) (age : List ℕ) :
    List (ℤ × ℕ) → List Ev → List ℤ → List Ev × List ℤ
  | [], evs, act => (evs, act)
  | b :: rest, evs, act =>
      emitBirths base age rest
        (evs ++ [(base, .noteOn 0 b.1 (min (30 + 10 * age.getD b.2 0) 110) 0)])
        (addNote act b.1)

/-- One sustain-mode step `s` of the scheduling loop. -/
def sustainStep (scale : List ℤ) (q : ℤ) (s : ℕ) (st : SchedState) : SchedState :=
  let nxt := next_rule190_toroidal st.row
  let base := (s : ℤ) * q
  let age2 := classifyAge st.row nxt st.age
  let r1 := emitDeaths base (deathsOf scale st.row nxt) st.events st.active
  let r2 := emitBirths base age2 (birthsOf scale st.row nxt) r1.1 r1.2
  ⟨nxt, age2, r2.1, r2.2⟩

/-- The staccato-mode column loop: every column whose next state is `1`
gets a `note_on` at the base tick and a `note_off` at the gate tick; its
age is incremented on survival and reset to 1 on birth; other columns
have their age reset to 0. -/
def staccatoCols (scale : List ℤ) (row nxt : List ℕ) (base offTick : ℤ) :
    List ℕ → List ℕ × List Ev → List ℕ × List Ev
  | [], acc => acc
  | i :: rest, acc =>
      if nxt.getD i 0 = 1 then
        staccatoCols scale row nxt base offTick rest
          (acc.1.set i (if row.getD i 0 = 1 then acc.1.getD i 0 + 1 else 1),
           acc.2 ++
             [(base, .noteOn 0 (scale.getD i 0)
                 (min (30 + 10 * (if row.getD i 0 = 1 then acc.1.getD i 0 + 1 else 1)) 110) 0),
              (offTick, .noteOff 0 (scale.getD i 0) 0 0)])
      else staccatoCols scale row nxt base offTick rest (acc.1.set i 0, acc.2)

/-- One staccato-mode step `s`; `off_tick = base_tick + int(cfg.q * gate_frac)`. -/
def staccatoStep (scale : List ℤ) (q : ℤ) (gf : ℚ) (s : ℕ) (st : SchedState) : SchedState :=
  let nxt := next_rule190_toroidal st.row
  let base := (s : ℤ) * q
  let offTick := base + pythonInt ((q : ℚ) * gf)
  let r := staccatoCols scale st.row nxt base offTick (List.range st.row.length)
    (st.age, st.events)
  ⟨nxt, r.1, r.2, st.active⟩

/-- Ascending insertion of an integer into a sorted list (used to model
Python's `sorted`). -/
def insInt (x : ℤ) : List ℤ → List ℤ
  | [] => [x]
  | y :: l => if y ≤ x then y :: insInt x l else x :: y :: l

/-- Python `sorted` on a list of integers. -/
def sortInts (l : List ℤ) : List ℤ := l.foldr insInt []

/-- The sustain-mode final flush: a `note_off` at the exact tick
`steps * cfg.q` for every still-active note (in sorted order), after
which the active set is cleared. -/
def flushSustain (q steps : ℤ) (st : SchedState) : SchedState :=
  ⟨st.row, st.age,
   st.events ++ (sortInts st.active).map (fun n => (steps * q, MidoMsg.noteOff 0 n 0 0)),
   []⟩

/-- `staccato = (cfg.gate is not None) and (cfg.gate > 0.0)`. -/
def staccatoB (cfg : RenderConfig) : Bool :=
  match cfg.gate with
  | none => false
  | some g => decide (0 < g)

/-- `gate_frac = max(0.0, min(0.9999, cfg.gate))`; `0` stands for Python's
`None` (the value is only ever read in staccato mode, where the gate is
present). -/
def gateFrac (cfg : RenderConfig) : ℚ :=
  match cfg.gate with
  | none => 0
  | some g => max 0 (min (9999 / 10000 : ℚ) g)

/-- The scheduler state before the first step: the initial row, all ages
zero, the tempo meta event at tick 0, and an empty active set. -/
def initState (bpm : ℤ) (row0 : List ℕ) : SchedState :=
  ⟨row0, List.replicate row0.length 0, [(0, MidoMsg.setTempo (bpm2tempo bpm) 0)], []⟩

/-- The body of `schedule_events` after `steps` has been computed: the
tempo meta event, the per-step loop in the selected mode (the mode flag
is loop-invariant, so the per-iteration branch is a top-level branch),
and the sustain flush. -/
def scheduleCoreAux (stac : Bool) (gf : ℚ) (q bpm : ℤ) (scale : List ℤ)
    (row0 : List ℕ) (steps : ℤ) : SchedState :=
  if stac then
    (List.range steps.toNat).foldl (fun st s => staccatoStep scale q gf s st)
      (initState bpm row0)
  else
    flushSustain q steps
      ((List.range steps.toNat).foldl (fun st s => sustainStep scale q s st)
        (initState bpm row0))

/-- The sort priority of a message: meta (tempo) first, then `note_off`,
then `note_on`. -/
def msgPri : MidoMsg → ℤ
  | .setTempo _ _ => -1
  | .noteOff _ _ _ _ => 0
  | .noteOn _ _ _ _ => 1

/-- Strict comparison of the sort keys `(tick, priority)`. -/
def evLt (a b : Ev) : Bool :=
  a.1 < b.1 || (a.1 == b.1 && msgPri a.2 < msgPri b.2)

/-- Stable insertion of an event into an already sorted event list: the
event goes in front of the first element whose key is not strictly
smaller. -/
def insertEv (e : Ev) : List Ev → List Ev
  | [] => [e]
  | f :: l => if evLt f e then f :: insertEv e l else e :: f :: l

/-- `events.sort(key=sort_key)`: the (unique) stable sort by
`(tick, priority)`. -/
def sortEvents (l : List Ev) : List Ev := l.foldr insertEv []

/-- Overwrite the `time` field of a message (`msg.time = ...`). -/
def setTime (m : MidoMsg) (t : ℤ) : MidoMsg :=
  match m with
  | .setTempo a _ => .setTempo a t
  | .noteOn c n v _ => .noteOn c n v t
  | .noteOff c n v _ => .noteOff c n v t

/-- The serialization loop: `delta = abs_tick - last_tick;
msg.time = max(0, delta)`. -/
def buildTrack (last : ℤ) : List Ev → List MidoMsg
  | [] => []
  | (t, m) :: rest => setTime m (max 0 (t - last)) :: buildTrack t rest

/-- The same loop without the `max(0, ·)` clamp, for comparison with the
specified behavior of never silently clamping a negative delta. -/
def buildTrackExact (last : ℤ) : List Ev → List MidoMsg
  | [] => []
  | (t, m) :: rest => setTime m (t - last) :: buildTrackExact t rest

/-- `schedule_events(row0, scale, cfg)` up to the final `mid.save`: the
value is the serialized track (the file content in message form). -/
def schedule_events (cfg : RenderConfig) (row0 : List ℕ) (scale : List ℤ) :
    Except String (List MidoMsg) :=
  match steps_for_8_seconds cfg with
  | .error e => .error e
  | .ok steps =>
      .ok (buildTrack 0 (sortEvents
        (scheduleCoreAux (staccatoB cfg) (gateFrac cfg) cfg.q cfg.bpm scale row0 steps).events))

/-! ## Observation helpers used to state the claims -/

/-- Is this event a `note_on` for pitch `p`? -/
def onP (p : ℤ) (e : Ev) : Bool :=
  match e.2 with
  | .noteOn _ n _ _ => n == p
  | _ => false

/-- Is this event a `note_off` for pitch `p`? -/
def offP (p : ℤ) (e : Ev) : Bool :=
  match e.2 with
  | .noteOff _ n _ _ => n == p
  | _ => false

/-- Number of `note_on` events for pitch `p`. -/
def countOn (p : ℤ) (evs : List Ev) : ℕ := evs.countP (onP p)

/-- Number of `note_off` events for pitch `p`. -/
def countOff (p : ℤ) (evs : List Ev) : ℕ := evs.countP (offP p)

/-- The `(tick, note)` pairs of the `note_on` events, in order. -/
def onsOf (evs : List Ev) : List (ℤ × ℤ) :=
  evs.filterMap (fun e =>
    match e.2 with
    | .noteOn _ n _ _ => some (e.1, n)
    | _ => none)

/-- The `(tick, note)` pairs of the `note_off` events, in order. -/
def offsOf (evs : List Ev) : List (ℤ × ℤ) :=
  evs.filterMap (fun e =>
    match e.2 with
    | .noteOff _ n _ _ => some (e.1, n)
    | _ => none)

/-- Velocity of a message (0 for non-`note_on`). -/
def velOf : MidoMsg → ℕ
  | .noteOn _ _ v _ => v
  | _ => 0

/-- Rotation of a row by `k` positions (cell `i` of the result is cell
`(i + k) mod W` of the input). -/
def rotate (k : ℤ) (row : List ℕ) : List ℕ :=
  (List.range row.length).map (fun (i : ℕ) =>
    row.getD ((((i : ℤ) + k) % (row.length : ℤ)).toNat) 0)

/-! ## The explicit single-seed evolution used for the closed-form proof -/

/-- Cell value of the Rule-190 evolution of a single seed at center `c`
after `t` fixed-zero steps: the live window is `[c-t, c+t]` and, counting
from its left end, every cell is `1` except those at offsets `≡ 3 mod 4`. -/
def patBit (c t : ℕ) (j : ℤ) : ℕ :=
  if (c : ℤ) - t ≤ j ∧ j ≤ (c : ℤ) + t ∧ (j - c + t) % 4 ≠ 3 then 1 else 0

/-- The explicit row of width `W` after `t` steps. -/
def rowAt (W c t : ℕ) : List ℕ := (List.range W).map (fun (j : ℕ) => patBit c t (j : ℤ))

/-- The anchored encoding of `rowAt` in closed form. -/
def bSum (t : ℕ) : ℕ :=
  ∑ m ∈ Finset.range (2 * t + 1), if (2 * t - m) % 4 = 3 then 0 else 2 ^ m

/-- The recurrence `a0=1, a1=7, a2=29, a_t = 4a_{t-1} + a_{t-2} - 4a_{t-3}`
as a function. -/
def recA : ℕ → ℤ
  | 0 => 1
  | 1 => 7
  | 2 => 29
  | t + 3 => 4 * recA (t + 2) + recA (t + 1) - 4 * recA t

/-- Reading a row at an integer position wrapped modulo its width: the
uniform access pattern of the toroidal step. -/
def wrapGet (row : List ℕ) (x : ℤ) : ℕ := row.getD ((x % (row.length : ℤ)).toNat) 0


/-! ## General helper lemmas -/

theorem getD_range_map {α : Type} (f : ℕ → α) (d : α) {W m : ℕ} (h : m < W) :
    ((List.range W).map f).getD m d = f m := by
  rw [List.getD_eq_getElem _ _ (by simpa using h)]
  simp

theorem bin_getD_le_one {row : List ℕ} (hbin : ∀ x ∈ row, x ≤ 1) (n : ℕ) :
    row.getD n 0 ≤ 1 := by
  by_cases h : n < row.length
  · rw [List.getD_eq_getElem _ _ h]
    exact hbin _ (List.getElem_mem h)
  · rw [List.getD_eq_default _ _ (le_of_not_lt h)]
    omega

theorem RULE190_pack (l c r : ℕ) (hl : l ≤ 1) (hc : c ≤ 1) (hr : r ≤ 1) :
    RULE190 ((l <<< 2) ||| (c <<< 1) ||| r) = rule190table l c r := by
  interval_cases l <;> interval_cases c <;> interval_cases r <;> decide

theorem emod_toNat_lt (a : ℤ) {W : ℕ} (h : 0 < W) : (a % (W : ℤ)).toNat < W := by
  have h1 : (0 : ℤ) < (W : ℤ) := by exact_mod_cast h
  have h2 := Int.emod_nonneg a h1.ne'
  have h3 := Int.emod_lt_of_pos a h1
  omega

theorem emod_shift (a k W : ℤ) : (a % W + k) % W = (a + k) % W := by
  conv_rhs => rw [Int.add_emod]
  rw [Int.add_emod (a % W) k, Int.emod_emod_of_dvd a dvd_rfl]

theorem next_toroidal_getD (row : List ℕ) {j : ℕ} (h : j < row.length) :
    (next_rule190_toroidal row).getD j 0 =
      RULE190 ((wrapGet row ((j : ℤ) - 1) <<< 2) ||| (wrapGet row (j : ℤ) <<< 1) |||
        wrapGet row ((j : ℤ) + 1)) := by
  rw [next_rule190_toroidal, getD_range_map _ _ h]
  have hj : ((j : ℤ) % (row.length : ℤ)).toNat = j := by
    rw [Int.emod_eq_of_lt (by positivity) (by exact_mod_cast h)]
    simp
  rw [wrapGet, wrapGet, wrapGet, hj]

theorem next_toroidal_length (row : List ℕ) :
    (next_rule190_toroidal row).length = row.length := by
  simp [next_rule190_toroidal]

theorem rotate_length (k : ℤ) (row : List ℕ) : (rotate k row).length = row.length := by
  simp [rotate]

theorem rotate_getD (k : ℤ) {row : List ℕ} {m : ℕ} (h : m < row.length) :
    (rotate k row).getD m 0 = wrapGet row ((m : ℤ) + k) := by
  rw [rotate, getD_range_map _ _ h, wrapGet]

theorem wrapGet_emod (row : List ℕ) (x y : ℤ) :
    wrapGet row (x % (row.length : ℤ) + y) = wrapGet row (x + y) := by
  rw [wrapGet, wrapGet, emod_shift]

theorem wrapGet_rotate {k : ℤ} {row : List ℕ} (h : 0 < row.length) (x : ℤ) :
    wrapGet (rotate k row) x = wrapGet row (x + k) := by
  rw [wrapGet, rotate_length]
  rw [rotate_getD k (emod_toNat_lt x h)]
  rw [Int.toNat_of_nonneg (Int.emod_nonneg x (by exact_mod_cast h.ne'))]
  exact wrapGet_emod row x k

/-! ## Claim C1 -/

/-- C1: for every binary row and both boundary policies, the one-step
update keeps the length, cell `i` is the Rule-190 table value of its
`(left, center, right)` neighborhood — wrapped modulo `W` for the
toroidal policy, out-of-range read as 0 for the fixed-zero policy — and a
width-0 row maps to the empty row. -/
theorem C1_rule_engine (row : List ℕ) (hbin : ∀ x ∈ row, x ≤ 1) :
    (next_rule190_toroidal row).length = row.length ∧
    (next_rule190_fixed0 row).length = row.length ∧
    (∀ i, i < row.length →
      (next_rule190_toroidal row).getD i 0 =
        rule190table (row.getD ((((i : ℤ) - 1) % (row.length : ℤ)).toNat) 0)
          (row.getD i 0) (row.getD ((((i : ℤ) + 1) % (row.length : ℤ)).toNat) 0) ∧
      (next_rule190_fixed0 row).getD i 0 =
        rule190table (if 0 < i then row.getD (i - 1) 0 else 0)
          (row.getD i 0) (if i < row.length - 1 then row.getD (i + 1) 0 else 0)) ∧
    (row.length = 0 →
      next_rule190_toroidal row = [] ∧ next_rule190_fixed0 row = []) := by
  refine ⟨by simp [next_rule190_toroidal], by simp [next_rule190_fixed0],
    fun i hi => ⟨?_, ?_⟩, fun h0 => ⟨?_, ?_⟩⟩
  · rw [next_rule190_toroidal, getD_range_map _ _ hi]
    exact RULE190_pack _ _ _ (bin_getD_le_one hbin _) (bin_getD_le_one hbin _)
      (bin_getD_le_one hbin _)
  · rw [next_rule190_fixed0, getD_range_map _ _ hi]
    refine RULE190_pack _ _ _ ?_ (bin_getD_le_one hbin _) ?_ <;>
      (split_ifs <;> first | exact bin_getD_le_one hbin _ | omega)
  · rw [next_rule190_toroidal, h0]
    rfl
  · rw [next_rule190_fixed0, h0]
    rfl

theorem C1_rule_engine_witness :
    (next_rule190_toroidal [0, 1, 1]).length = ([0, 1, 1] : List ℕ).length ∧
    (next_rule190_fixed0 [0, 1, 1]).length = ([0, 1, 1] : List ℕ).length ∧
    (∀ i, i < ([0, 1, 1] : List ℕ).length →
      (next_rule190_toroidal [0, 1, 1]).getD i 0 =
        rule190table (([0, 1, 1] : List ℕ).getD
            ((((i : ℤ) - 1) % (([0, 1, 1] : List ℕ).length : ℤ)).toNat) 0)
          (([0, 1, 1] : List ℕ).getD i 0)
          (([0, 1, 1] : List ℕ).getD
            ((((i : ℤ) + 1) % (([0, 1, 1] : List ℕ).length : ℤ)).toNat) 0) ∧
      (next_rule190_fixed0 [0, 1, 1]).getD i 0 =
        rule190table (if 0 < i then ([0, 1, 1] : List ℕ).getD (i - 1) 0 else 0)
          (([0, 1, 1] : List ℕ).getD i 0)
          (if i < ([0, 1, 1] : List ℕ).length - 1 then ([0, 1, 1] : List ℕ).getD (i + 1) 0
            else 0)) ∧
    (([0, 1, 1] : List ℕ).length = 0 →
      next_rule190_toroidal [0, 1, 1] = [] ∧ next_rule190_fixed0 [0, 1, 1] = []) :=
  C1_rule_engine [0, 1, 1] (by decide)

/-! ## Claim C8 -/

/-- C8: the toroidal step is translation-equivariant (stepping a rotation
is rotating the step), and cell 0 of the next row is the table value of
`(r[W-1], r[0], r[1 mod W])`. -/
theorem C8_translation_equivariance (row : List ℕ) (hW : 1 ≤ row.length) (k : ℤ) :
    next_rule190_toroidal (rotate k row) = rotate k (next_rule190_toroidal row) ∧
    (next_rule190_toroidal row).getD 0 0 =
      RULE190 (((row.getD (row.length - 1) 0) <<< 2) ||| ((row.getD 0 0) <<< 1) |||
        (row.getD (1 % row.length) 0)) := by
  have hpos : 0 < row.length := hW
  have hposN : 0 < (next_rule190_toroidal row).length := by
    rw [next_toroidal_length]; exact hpos
  constructor
  · apply List.ext_getElem
    · rw [next_toroidal_length, rotate_length, rotate_length, next_toroidal_length]
    · intro i h1 h2
      have hiW : i < row.length := by
        rw [next_toroidal_length, rotate_length] at h1; exact h1
      rw [← List.getD_eq_getElem _ 0 h1, ← List.getD_eq_getElem _ 0 h2]
      rw [next_toroidal_getD _ (by rwa [rotate_length])]
      rw [rotate_getD k (by rwa [next_toroidal_length])]
      rw [wrapGet_rotate hpos, wrapGet_rotate hpos, wrapGet_rotate hpos]
      have hj : (wrapGet (next_rule190_toroidal row) ((i : ℤ) + k)) =
          RULE190 ((wrapGet row ((i : ℤ) + k - 1) <<< 2) |||
            (wrapGet row ((i : ℤ) + k) <<< 1) ||| wrapGet row ((i : ℤ) + k + 1)) := by
        rw [wrapGet, next_toroidal_length]
        rw [next_toroidal_getD _ (emod_toNat_lt _ hpos)]
        rw [Int.toNat_of_nonneg (Int.emod_nonneg _ (by exact_mod_cast hpos.ne'))]
        have e1 : ((i : ℤ) + k) % (row.length : ℤ) - 1 =
            ((i : ℤ) + k) % (row.length : ℤ) + (-1) := by ring
        have e2 : ((i : ℤ) + k) % (row.length : ℤ) + 1 =
            ((i : ℤ) + k) % (row.length : ℤ) + 1 := rfl
        rw [e1, wrapGet_emod, wrapGet_emod]
        have e3 : wrapGet row (((i : ℤ) + k) % (row.length : ℤ)) = wrapGet row ((i : ℤ) + k) := by
          have := wrapGet_emod row ((i : ℤ) + k) 0
          simpa using this
        rw [e3]
        ring_nf
      rw [hj]
      have e4 : (i : ℤ) - 1 + k = (i : ℤ) + k - 1 := by ring
      have e5 : (i : ℤ) + 1 + k = (i : ℤ) + k + 1 := by ring
      rw [e4, e5]
  · rw [next_toroidal_getD _ hpos]
    simp only [Nat.cast_zero]
    have e1 : wrapGet row ((0 : ℤ) - 1) = row.getD (row.length - 1) 0 := by
      rw [wrapGet]
      have h1 : ((0 : ℤ) - 1) % (row.length : ℤ) = (row.length : ℤ) - 1 := by
        have h2 : ((0 : ℤ) - 1) % (row.length : ℤ) =
            ((row.length : ℤ) - 1) % (row.length : ℤ) := by
          conv_lhs =>
            rw [show (0 : ℤ) - 1 = (row.length : ℤ) - 1 + (row.length : ℤ) * (-1) by ring]
          rw [Int.add_mul_emod_self_left]
        rw [h2, Int.emod_eq_of_lt (by omega) (by omega)]
      rw [h1]
      congr 1
      omega
    have e2 : wrapGet row ((0 : ℤ)) = row.getD 0 0 := by
      rw [wrapGet, Int.zero_emod]
      rfl
    have e3 : wrapGet row ((0 : ℤ) + 1) = row.getD (1 % row.length) 0 := by
      rw [wrapGet]
      congr 1
    rw [e1, e2, e3]

theorem C8_translation_equivariance_witness :
    next_rule190_toroidal (rotate 2 [0, 1, 0]) =
      rotate 2 (next_rule190_toroidal [0, 1, 0]) ∧
    (next_rule190_toroidal [0, 1, 0]).getD 0 0 =
      RULE190 (((([0, 1, 0] : List ℕ).getD (([0, 1, 0] : List ℕ).length - 1) 0) <<< 2) |||
        ((([0, 1, 0] : List ℕ).getD 0 0) <<< 1) |||
        (([0, 1, 0] : List ℕ).getD (1 % ([0, 1, 0] : List ℕ).length) 0)) :=
  C8_translation_equivariance [0, 1, 0] (by decide) 2

/-! ## Claim C2: the single-seed evolution -/

theorem rowAt_length (W c t : ℕ) : (rowAt W c t).length = W := by
  simp [rowAt]

theorem rowAt_getD {W m : ℕ} (c t : ℕ) (h : m < W) :
    (rowAt W c t).getD m 0 = patBit c t (m : ℤ) := by
  rw [rowAt, getD_range_map _ _ h]

theorem patBit_eq_zero_left {c t : ℕ} {j : ℤ} (h : j < (c : ℤ) - t) : patBit c t j = 0 := by
  unfold patBit
  split_ifs with h1
  · omega
  · rfl

theorem patBit_eq_zero_right {c t : ℕ} {j : ℤ} (h : (c : ℤ) + t < j) : patBit c t j = 0 := by
  unfold patBit
  split_ifs with h1
  · omega
  · rfl

theorem patBit_step (c t : ℕ) (j : ℤ) :
    RULE190 ((patBit c t (j - 1) <<< 2) ||| (patBit c t j <<< 1) ||| patBit c t (j + 1)) =
      patBit c (t + 1) j := by
  unfold patBit
  push_cast
  split_ifs <;> first | decide | omega

theorem next_fixed0_getD (row : List ℕ) {j : ℕ} (h : j < row.length) :
    (next_rule190_fixed0 row).getD j 0 =
      RULE190 (((if 0 < j then row.getD (j - 1) 0 else 0) <<< 2) |||
        ((row.getD j 0) <<< 1) |||
        (if j < row.length - 1 then row.getD (j + 1) 0 else 0)) := by
  rw [next_rule190_fixed0, getD_range_map _ _ h]

theorem next_fixed0_length (row : List ℕ) :
    (next_rule190_fixed0 row).length = row.length := by
  simp [next_rule190_fixed0]

theorem rowAt_step {W c t : ℕ} (h1 : t + 1 ≤ c) (h2 : c + t + 1 < W) :
    next_rule190_fixed0 (rowAt W c t) = rowAt W c (t + 1) := by
  apply List.ext_getElem
  · rw [next_fixed0_length, rowAt_length, rowAt_length]
  · intro i hi1 hi2
    have hiW : i < W := by rwa [rowAt_length] at hi2
    rw [← List.getD_eq_getElem _ 0 hi1, ← List.getD_eq_getElem _ 0 hi2]
    rw [next_fixed0_getD _ (by rwa [rowAt_length]), rowAt_length]
    have el : (if 0 < i then (rowAt W c t).getD (i - 1) 0 else 0) = patBit c t ((i : ℤ) - 1) := by
      split_ifs with hpos
    -- in-range read
      · rw [rowAt_getD c t (by omega)]
        congr 1
        omega
      · rw [patBit_eq_zero_left (by omega)]
    have er : (if i < W - 1 then (rowAt W c t).getD (i + 1) 0 else 0) =
        patBit c t ((i : ℤ) + 1) := by
      split_ifs with hlt
      · rw [rowAt_getD c t (by omega)]
        push_cast
        ring_nf
      · rw [patBit_eq_zero_right (by omega)]
    rw [el, er, rowAt_getD c t hiW, rowAt_getD c (t + 1) hiW, patBit_step]

theorem singleOneRow_eq_rowAt (W : ℕ) : singleOneRow W = rowAt W (W / 2) 0 := by
  unfold singleOneRow rowAt
  apply List.map_congr_left
  intro j hj
  unfold patBit
  split_ifs <;> omega

theorem iterate_rowAt {W c : ℕ} (t : ℕ) (h1 : t ≤ c) (h2 : c + t < W) :
    next_rule190_fixed0^[t] (rowAt W c 0) = rowAt W c t := by
  induction t with
  | zero => rfl
  | succ n ih =>
      rw [Function.iterate_succ_apply', ih (by omega) (by omega)]
      exact rowAt_step (by omega) (by omega)

theorem rmoAux_rowAt {W c t : ℕ} (h1 : t ≤ c) (h2 : c + t < W) :
    ∀ k, c + t < k → k ≤ W → rmoAux (rowAt W c t) k = ((c : ℤ) + t) := by
  intro k
  induction k with
  | zero => omega
  | succ m ih =>
      intro hlo hhi
      rw [rmoAux]
      by_cases hm : m = c + t
      · subst hm
        rw [if_pos]
        · omega
        · rw [rowAt_getD c t (by omega)]
          unfold patBit
          rw [if_pos (show ((c : ℤ) - t ≤ ((c + t : ℕ) : ℤ)) ∧
              (((c + t : ℕ) : ℤ) ≤ (c : ℤ) + t) ∧ ((((c + t : ℕ) : ℤ) - c + t) % 4 ≠ 3) from
            ⟨by omega, by omega, by omega⟩)]
          omega
      · rw [if_neg, ih (by omega) (by omega)]
        rw [rowAt_getD c t (by omega), patBit_eq_zero_right (by omega)]
        omega

theorem lor_two_pow {b x : ℕ} (h : x < 2 ^ b) : x ||| (1 <<< b) = x + 2 ^ b := by
  rw [Nat.one_shiftLeft]
  induction b generalizing x with
  | zero =>
      have hx : x = 0 := by omega
      subst hx
      decide
  | succ n ih =>
      have h2 : (2 : ℕ) ^ (n + 1) = 2 * 2 ^ n := by
        rw [pow_succ]
        ring
      rcases Nat.even_or_odd x with he | ho
      · obtain ⟨q, hq⟩ := he
        have hx : x = 2 * q := by omega
        have hq2 : q < 2 ^ n := by omega
        have key : Nat.bit false q ||| Nat.bit false (2 ^ n) =
            Nat.bit (false || false) (q ||| 2 ^ n) := Nat.lor_bit false q false (2 ^ n)
        have e1 : Nat.bit false q = 2 * q := rfl
        have e2 : Nat.bit false (2 ^ n) = 2 * 2 ^ n := rfl
        have e3 : Nat.bit (false || false) (q ||| 2 ^ n) = 2 * (q ||| 2 ^ n) := rfl
        rw [e1, e2, e3] at key
        rw [hx, h2, key, ih hq2]
        ring
      · obtain ⟨q, hq⟩ := ho
        have hq2 : q < 2 ^ n := by omega
        have key : Nat.bit true q ||| Nat.bit false (2 ^ n) =
            Nat.bit (true || false) (q ||| 2 ^ n) := Nat.lor_bit true q false (2 ^ n)
        have e1 : Nat.bit true q = 2 * q + 1 := rfl
        have e2 : Nat.bit false (2 ^ n) = 2 * 2 ^ n := rfl
        have e3 : Nat.bit (true || false) (q ||| 2 ^ n) = 2 * (q ||| 2 ^ n) + 1 := rfl
        rw [e1, e2, e3] at key
        rw [hq, h2, key, ih hq2]
        ring

theorem packAux_eq (row : List ℕ) :
    ∀ (k b x : ℕ), x < 2 ^ b →
      packAux row k b x =
        x + ∑ j ∈ Finset.range k, (if row.getD j 0 ≠ 0 then 2 ^ (b + (k - 1 - j)) else 0) := by
  intro k
  induction k with
  | zero => simp [packAux]
  | succ n ih =>
      intro b x hx
      simp only [packAux]
      have hxs : (if row.getD n 0 ≠ 0 then x ||| (1 <<< b) else x) < 2 ^ (b + 1) := by
        split_ifs
        · rw [lor_two_pow hx, pow_succ]
          omega
        · rw [pow_succ]
          omega
      rw [ih (b + 1) _ hxs, Finset.sum_range_succ]
      have hsum : ∀ j ∈ Finset.range n,
          (if row.getD j 0 ≠ 0 then 2 ^ (b + 1 + (n - 1 - j)) else 0) =
          (if row.getD j 0 ≠ 0 then 2 ^ (b + (n + 1 - 1 - j)) else 0) := by
        intro j hj
        rw [Finset.mem_range] at hj
        split_ifs
        · congr 1
          omega
        · rfl
      rw [Finset.sum_congr rfl hsum]
      have hlast : (if row.getD n 0 ≠ 0 then 2 ^ (b + (n + 1 - 1 - n)) else 0) =
          (if row.getD n 0 ≠ 0 then 2 ^ b else 0) := by
        split_ifs
        · congr 1
          omega
        · rfl
      rw [hlast]
      split_ifs with hc
      · rw [lor_two_pow hx]
        omega
      · omega

theorem patBit_offset (c t j : ℕ) (h1 : t ≤ c) (hj : j ≤ 2 * t) :
    patBit c t ((c - t + j : ℕ) : ℤ) = if j % 4 = 3 then 0 else 1 := by
  unfold patBit
  have hcast : ((c - t + j : ℕ) : ℤ) = (c : ℤ) - t + j := by omega
  rw [hcast]
  split_ifs with hcond hj4 hj4
  · omega
  · rfl
  · rfl
  · omega

theorem encode_rowAt {W c t : ℕ} (h1 : t ≤ c) (h2 : c + t < W) :
    row_to_int_anchor_rightmost (rowAt W c t) = bSum t := by
  have hrmo : rmoAux (rowAt W c t) ((rowAt W c t).length) = ((c : ℤ) + t) := by
    rw [rowAt_length]
    exact rmoAux_rowAt h1 h2 W h2 le_rfl
  simp only [row_to_int_anchor_rightmost, hrmo]
  rw [if_neg (by omega)]
  have htn : ((c : ℤ) + (t : ℤ)).toNat = c + t := by omega
  rw [htn]
  rw [packAux_eq (rowAt W c t) (c + t + 1) 0 0 (by norm_num), zero_add]
  have hterm : ∀ j ∈ Finset.range (c + t + 1),
      (if (rowAt W c t).getD j 0 ≠ 0 then 2 ^ (0 + (c + t + 1 - 1 - j)) else 0) =
      (if patBit c t (j : ℤ) ≠ 0 then 2 ^ (c + t - j) else 0) := by
    intro j hj
    rw [Finset.mem_range] at hj
    rw [rowAt_getD c t (by omega)]
    split_ifs
    · congr 1
      omega
    · rfl
  rw [Finset.sum_congr rfl hterm]
  rw [Finset.range_eq_Ico]
  rw [← Finset.sum_Ico_consecutive _ (Nat.zero_le (c - t)) (show c - t ≤ c + t + 1 by omega)]
  have hzero : (∑ j ∈ Finset.Ico 0 (c - t),
      (if patBit c t (j : ℤ) ≠ 0 then 2 ^ (c + t - j) else 0)) = 0 := by
    apply Finset.sum_eq_zero
    intro j hj
    rw [Finset.mem_Ico] at hj
    rw [patBit_eq_zero_left (by omega)]
    simp
  rw [hzero, zero_add]
  rw [Finset.sum_Ico_eq_sum_range]
  have hspan : c + t + 1 - (c - t) = 2 * t + 1 := by omega
  rw [hspan]
  have hterm2 : ∀ j ∈ Finset.range (2 * t + 1),
      (if patBit c t ((c - t + j : ℕ) : ℤ) ≠ 0 then 2 ^ (c + t - (c - t + j)) else 0) =
      (if j % 4 = 3 then 0 else 2 ^ (2 * t - j)) := by
    intro j hj
    rw [Finset.mem_range] at hj
    rw [patBit_offset c t j h1 (by omega)]
    by_cases h4 : j % 4 = 3
    · simp [h4]
    · simp only [h4, if_false]
      rw [if_pos (by omega)]
      congr 1
      omega
  rw [Finset.sum_congr rfl hterm2]
  unfold bSum
  rw [← Finset.sum_range_reflect]
  apply Finset.sum_congr rfl
  intro j hj
  rw [Finset.mem_range] at hj
  have e1 : 2 * t + 1 - 1 - j = 2 * t - j := by omega
  rw [e1]
  have e2 : 2 * t - (2 * t - j) = j := by omega
  rw [e2]

theorem bSum_succ (t : ℕ) : bSum (t + 1) = 4 * bSum t + (if t % 2 = 0 then 3 else 1) := by
  unfold bSum
  have hn : 2 * (t + 1) + 1 = (2 * t + 1) + 1 + 1 := by ring
  rw [hn, Finset.sum_range_succ', Finset.sum_range_succ']
  have hshift : ∀ i ∈ Finset.range (2 * t + 1),
      (if (2 * (t + 1) - (i + 1 + 1)) % 4 = 3 then 0 else 2 ^ (i + 1 + 1)) =
      4 * (if (2 * t - i) % 4 = 3 then 0 else 2 ^ i) := by
    intro i hi
    rw [Finset.mem_range] at hi
    have e : 2 * (t + 1) - (i + 1 + 1) = 2 * t - i := by omega
    rw [e]
    split_ifs
    · simp
    · rw [pow_succ, pow_succ]
      ring
  rw [Finset.sum_congr rfl hshift, ← Finset.mul_sum]
  by_cases hp : t % 2 = 0
  · rw [if_pos hp]
    rw [if_neg (show ¬((2 * (t + 1) - (0 + 1)) % 4 = 3) by omega)]
    rw [if_neg (show ¬((2 * (t + 1) - 0) % 4 = 3) by omega)]
    norm_num
  · rw [if_neg hp]
    rw [if_pos (show (2 * (t + 1) - (0 + 1)) % 4 = 3 by omega)]
    rw [if_neg (show ¬((2 * (t + 1) - 0) % 4 = 3) by omega)]
    norm_num

theorem recA_succ (t : ℕ) : recA (t + 1) = 4 * recA t + (if t % 2 = 0 then 3 else 1) := by
  induction t using Nat.strong_induction_on with
  | _ t ih =>
    rcases t with _ | (_ | n)
    · norm_num [recA]
    · norm_num [recA]
    · have h1 := ih n (by omega)
      have h2 : (n + 2) % 2 = n % 2 := by omega
      simp only [recA]
      rw [h1, h2]
      split_ifs <;> ring

theorem recA_eq_bSum (t : ℕ) : recA t = (bSum t : ℤ) := by
  induction t with
  | zero => decide
  | succ n ih =>
      rw [recA_succ, bSum_succ, ih]
      split_ifs <;> push_cast <;> ring

theorem seqNext_mapRecA {j : ℕ} (hj : 3 ≤ j) :
    seqNext ((List.range j).map recA) = recA j := by
  unfold seqNext
  rw [List.length_map, List.length_range]
  rw [getD_range_map recA 0 (show j - 1 < j by omega),
      getD_range_map recA 0 (show j - 2 < j by omega),
      getD_range_map recA 0 (show j - 3 < j by omega)]
  obtain ⟨m, rfl⟩ : ∃ m, j = m + 3 := ⟨j - 3, by omega⟩
  have e1 : m + 3 - 1 = m + 2 := by omega
  have e2 : m + 3 - 2 = m + 1 := by omega
  have e3 : m + 3 - 3 = m := by omega
  rw [e1, e2, e3]
  simp only [recA]

theorem seqLoop_mapRecA (k : ℕ) : ∀ j, 3 ≤ j →
    seqLoop k ((List.range j).map recA) = (List.range (j + k)).map recA := by
  induction k with
  | zero =>
      intro j hj
      simp [seqLoop]
  | succ n ih =>
      intro j hj
      simp only [seqLoop]
      rw [seqNext_mapRecA hj]
      have e : (List.range j).map recA ++ [recA j] = (List.range (j + 1)).map recA := by
        rw [List.range_succ, List.map_append]
        rfl
      rw [e, ih (j + 1) (by omega), show j + 1 + n = j + (n + 1) from by omega]

theorem seq_getD {n t : ℕ} (ht : t < n) :
    (rule190_single_one_sequence n).getD t 0 = recA t := by
  unfold rule190_single_one_sequence
  split_ifs with h0 h1 h2
  · omega
  · have ht0 : t = 0 := by omega
    subst ht0
    rfl
  · subst h2
    interval_cases t
    · rfl
    · rfl
  · have e0 : ([1, 7, 29] : List ℤ) = (List.range 3).map recA := by decide
    rw [e0, seqLoop_mapRecA (n - 3) 3 (by omega)]
    have e1 : 3 + (n - 3) = n := by omega
    rw [e1]
    have e2 : ((List.range n).map recA).take n = (List.range n).map recA := by
      apply List.take_of_length_le
      simp
    rw [e2, getD_range_map recA 0 ht]

/-- C2: seeding a single 1 at the center of a fixed-zero row of width at
least `1 + 2n` and stepping `t < n` times yields the anchored encoding
equal to the `t`-th term of the closed-form recurrence sequence. -/
theorem C2_closed_form (n W t : ℕ) (hn : 1 ≤ n) (hW : 1 + 2 * n ≤ W) (ht : t < n) :
    (row_to_int_anchor_rightmost (next_rule190_fixed0^[t] (singleOneRow W)) : ℤ) =
      (rule190_single_one_sequence n).getD t 0 := by
  rw [singleOneRow_eq_rowAt W]
  rw [iterate_rowAt t (by omega) (by omega)]
  rw [encode_rowAt (by omega) (by omega)]
  rw [seq_getD ht, recA_eq_bSum]

theorem C2_closed_form_witness :
    (row_to_int_anchor_rightmost (next_rule190_fixed0^[3] (singleOneRow 21)) : ℤ) =
      (rule190_single_one_sequence 10).getD 3 0 :=
  C2_closed_form 10 21 3 (by decide) (by decide) (by decide)


/-! ## The final sort of the event list -/

theorem evLt_iff (a b : Ev) :
    evLt a b = true ↔ (a.1 < b.1 ∨ (a.1 = b.1 ∧ msgPri a.2 < msgPri b.2)) := by
  simp [evLt]

theorem evLt_false_iff (a b : Ev) :
    evLt b a = false ↔ (a.1 < b.1 ∨ (a.1 = b.1 ∧ msgPri a.2 ≤ msgPri b.2)) := by
  rw [show (evLt b a = false) ↔ ¬(evLt b a = true) by simp]
  rw [evLt_iff]
  omega

theorem insertEv_perm (e : Ev) : ∀ l, List.Perm (insertEv e l) (e :: l) := by
  intro l
  induction l with
  | nil => exact List.Perm.refl _
  | cons f rest ih =>
      rw [insertEv]
      split_ifs
      · exact (ih.cons f).trans (List.Perm.swap e f rest)
      · exact List.Perm.refl _

theorem sortEvents_perm (l : List Ev) : List.Perm (sortEvents l) l := by
  induction l with
  | nil => exact List.Perm.refl _
  | cons e rest ih =>
      have h1 : sortEvents (e :: rest) = insertEv e (sortEvents rest) := rfl
      rw [h1]
      exact (insertEv_perm e (sortEvents rest)).trans (ih.cons e)

theorem insertEv_sorted (e : Ev) :
    ∀ l, l.Pairwise (fun a b : Ev => evLt b a = false) →
      (insertEv e l).Pairwise (fun a b : Ev => evLt b a = false) := by
  intro l
  induction l with
  | nil =>
      intro _
      simp [insertEv]
  | cons f rest ih =>
      intro hp
      rcases List.pairwise_cons.mp hp with ⟨hf, hrest⟩
      rw [insertEv]
      split_ifs with hfe
      · refine List.pairwise_cons.mpr ⟨?_, ih hrest⟩
        intro x hx
        rcases List.mem_cons.mp ((insertEv_perm e rest).mem_iff.mp hx) with hx1 | hx1
        · subst hx1
          rw [evLt_false_iff]
          rw [evLt_iff] at hfe
          omega
        · exact hf x hx1
      · have hef : evLt f e = false := by
          revert hfe
          cases evLt f e <;> simp
        refine List.pairwise_cons.mpr ⟨?_, hp⟩
        intro x hx
        rcases List.mem_cons.mp hx with hx1 | hx1
        · subst hx1
          exact hef
        · have h1 := hf x hx1
          rw [evLt_false_iff] at hef h1 ⊢
          omega

theorem sortEvents_sorted (l : List Ev) :
    (sortEvents l).Pairwise (fun a b : Ev => evLt b a = false) := by
  induction l with
  | nil => exact List.Pairwise.nil
  | cons e rest ih => exact insertEv_sorted e (sortEvents rest) ih

/-! ## Claim C6 -/

/-- C6: the scheduler's final event sequence is sorted by absolute tick,
and among events at an equal tick the tempo meta event (priority -1)
precedes every `note_off` (priority 0), which precedes every `note_on`
(priority 1); in particular no stop-class event ever follows a
start-class event at the same tick. -/
theorem C6_final_ordering (cfg : RenderConfig) (row0 : List ℕ) (scale : List ℤ) (steps : ℤ) :
    (sortEvents (scheduleCoreAux (staccatoB cfg) (gateFrac cfg) cfg.q cfg.bpm scale row0
        steps).events).Pairwise
      (fun a b : Ev => a.1 < b.1 ∨ (a.1 = b.1 ∧ msgPri a.2 ≤ msgPri b.2)) :=
  (sortEvents_sorted _).imp (fun h => (evLt_false_iff _ _).mp h)

/-! ## Event shape and tick bounds -/

theorem emitDeaths_shape (base : ℤ) :
    ∀ (l : List (ℤ × ℕ)) (evs : List Ev) (act : List ℤ) (e : Ev),
      e ∈ (emitDeaths base l evs act).1 →
      e ∈ evs ∨ ∃ p, e = (base, MidoMsg.noteOff 0 p 0 0) := by
  intro l
  induction l with
  | nil =>
      intro evs act e he
      exact Or.inl he
  | cons d rest ih =>
      intro evs act e he
      rw [emitDeaths] at he
      split_ifs at he with hd
      · rcases ih _ _ _ he with h | h
        · rcases List.mem_append.mp h with h2 | h2
          · exact Or.inl h2
          · right
            exact ⟨d.1, by simpa using h2⟩
        · exact Or.inr h
      · exact ih _ _ _ he

theorem emitBirths_shape (base : ℤ) (age : List ℕ) :
    ∀ (l : List (ℤ × ℕ)) (evs : List Ev) (act : List ℤ) (e : Ev),
      e ∈ (emitBirths base age l evs act).1 →
      e ∈ evs ∨ ∃ b, b ∈ l ∧
        e = (base, MidoMsg.noteOn 0 b.1 (min (30 + 10 * age.getD b.2 0) 110) 0) := by
  intro l
  induction l with
  | nil =>
      intro evs act e he
      exact Or.inl he
  | cons b rest ih =>
      intro evs act e he
      rw [emitBirths] at he
      rcases ih _ _ _ he with h | h
      · rcases List.mem_append.mp h with h2 | h2
        · exact Or.inl h2
        · right
          exact ⟨b, by simp, by simpa using h2⟩
      · obtain ⟨b2, hb2, he2⟩ := h
        right
        exact ⟨b2, by simp [hb2], he2⟩

theorem staccatoCols_shape (scale : List ℤ) (row nxt : List ℕ) (base offTick : ℤ) :
    ∀ (idxs : List ℕ) (acc : List ℕ × List Ev) (e : Ev),
      e ∈ (staccatoCols scale row nxt base offTick idxs acc).2 →
      e ∈ acc.2 ∨
        (∃ p v, 1 ≤ v ∧ e = (base, MidoMsg.noteOn 0 p (min (30 + 10 * v) 110) 0)) ∨
        ∃ p, e = (offTick, MidoMsg.noteOff 0 p 0 0) := by
  intro idxs
  induction idxs with
  | nil =>
      intro acc e he
      exact Or.inl he
  | cons i rest ih =>
      intro acc e he
      rw [staccatoCols] at he
      by_cases hni : nxt.getD i 0 = 1
      · rw [if_pos hni] at he
        rcases ih _ _ he with h | h | h
        · rcases List.mem_append.mp h with h2 | h2
          · exact Or.inl h2
          · rcases List.mem_cons.mp h2 with h3 | h3
            · right
              left
              exact ⟨scale.getD i 0, (if row.getD i 0 = 1 then acc.1.getD i 0 + 1 else 1),
                by split_ifs <;> omega, h3⟩
            · right
              right
              exact ⟨scale.getD i 0, by simpa using h3⟩
        · exact Or.inr (Or.inl h)
        · exact Or.inr (Or.inr h)
      · rw [if_neg hni] at he
        exact ih (acc.1.set i 0, acc.2) e he

theorem foldl_inv {σ α : Type} {P : σ → Prop} (f : σ → α → σ) :
    ∀ (l : List α) (s : σ), P s → (∀ s' a, a ∈ l → P s' → P (f s' a)) → P (l.foldl f s) := by
  intro l
  induction l with
  | nil =>
      intro s hs _
      exact hs
  | cons a rest ih =>
      intro s hs hstep
      exact ih (f s a) (hstep s a (by simp) hs) (fun s' b hb hs' => hstep s' b (by simp [hb]) hs')

theorem pythonInt_nonneg {x : ℚ} (h : 0 ≤ x) : 0 ≤ pythonInt x := by
  rw [pythonInt, if_pos h]
  exact Int.floor_nonneg.mpr h

theorem pythonInt_le {x : ℚ} {c : ℤ} (h0 : 0 ≤ x) (h : x ≤ (c : ℚ)) : pythonInt x ≤ c := by
  rw [pythonInt, if_pos h0]
  calc ⌊x⌋ ≤ ⌊(c : ℚ)⌋ := Int.floor_le_floor h
    _ = c := Int.floor_intCast c

theorem gateFrac_nonneg (cfg : RenderConfig) : 0 ≤ gateFrac cfg := by
  cases hg : cfg.gate <;> simp [gateFrac, hg]

theorem gateFrac_le_one (cfg : RenderConfig) : gateFrac cfg ≤ 1 := by
  cases hg : cfg.gate with
  | none =>
      simp [gateFrac, hg]
  | some g =>
      simp only [gateFrac, hg]
      exact max_le (by norm_num) (le_trans (min_le_left _ _) (by norm_num))

theorem initState_events (bpm : ℤ) (row0 : List ℕ) :
    (initState bpm row0).events = [(0, MidoMsg.setTempo (bpm2tempo bpm) 0)] := rfl

theorem sustainStep_events_shape (scale : List ℤ) (q : ℤ) (s : ℕ) (st : SchedState) :
    ∀ e ∈ (sustainStep scale q s st).events,
      e ∈ st.events ∨
        (∃ b, b ∈ birthsOf scale st.row (next_rule190_toroidal st.row) ∧
          e = ((s : ℤ) * q, MidoMsg.noteOn 0 b.1
            (min (30 + 10 * (classifyAge st.row (next_rule190_toroidal st.row)
              st.age).getD b.2 0) 110) 0)) ∨
        ∃ p, e = ((s : ℤ) * q, MidoMsg.noteOff 0 p 0 0) := by
  intro e he
  rw [sustainStep] at he
  rcases emitBirths_shape _ _ _ _ _ _ he with h | h
  · rcases emitDeaths_shape _ _ _ _ _ h with h2 | h2
    · exact Or.inl h2
    · exact Or.inr (Or.inr h2)
  · exact Or.inr (Or.inl h)

theorem staccatoStep_events_shape (scale : List ℤ) (q : ℤ) (gf : ℚ) (s : ℕ) (st : SchedState) :
    ∀ e ∈ (staccatoStep scale q gf s st).events,
      e ∈ st.events ∨
        (∃ p v, 1 ≤ v ∧ e = ((s : ℤ) * q, MidoMsg.noteOn 0 p (min (30 + 10 * v) 110) 0)) ∨
        ∃ p, e = ((s : ℤ) * q + pythonInt ((q : ℚ) * gf), MidoMsg.noteOff 0 p 0 0) := by
  intro e he
  rw [staccatoStep] at he
  exact staccatoCols_shape _ _ _ _ _ _ _ _ he

theorem core_events_bound (stac : Bool) (gf : ℚ) (q bpm : ℤ) (scale : List ℤ)
    (row0 : List ℕ) (steps : ℤ) (hq : 0 ≤ q) (hgf : 0 ≤ gf) (hgf1 : gf ≤ 1)
    (hsteps : 0 ≤ steps) :
    ∀ e ∈ (scheduleCoreAux stac gf q bpm scale row0 steps).events,
      0 ≤ e.1 ∧ e.1 ≤ steps * q := by
  have hM : (0 : ℤ) ≤ steps * q := mul_nonneg hsteps hq
  have hoff : 0 ≤ pythonInt ((q : ℚ) * gf) ∧ pythonInt ((q : ℚ) * gf) ≤ q := by
    constructor
    · exact pythonInt_nonneg (mul_nonneg (by exact_mod_cast hq) hgf)
    · refine pythonInt_le (mul_nonneg (by exact_mod_cast hq) hgf) ?_
      calc (q : ℚ) * gf ≤ (q : ℚ) * 1 := by
            apply mul_le_mul_of_nonneg_left hgf1
            exact_mod_cast hq
        _ = (q : ℚ) := by ring
  have hbase : ∀ s : ℕ, (s : ℤ) < steps → 0 ≤ (s : ℤ) * q ∧ (s : ℤ) * q ≤ steps * q := by
    intro s hs
    constructor
    · positivity
    · apply mul_le_mul_of_nonneg_right _ hq
      omega
  have hstepped : ∀ s : ℕ, (s : ℤ) < steps →
      0 ≤ (s : ℤ) * q + pythonInt ((q : ℚ) * gf) ∧
      (s : ℤ) * q + pythonInt ((q : ℚ) * gf) ≤ steps * q := by
    intro s hs
    have h1 := (hbase s hs).1
    have h2 : ((s : ℤ) + 1) * q ≤ steps * q :=
      mul_le_mul_of_nonneg_right (by omega) hq
    constructor
    · omega
    · nlinarith [hoff.1, hoff.2]
  rw [scheduleCoreAux]
  split_ifs with hst
  · apply foldl_inv
      (P := fun st : SchedState => ∀ e ∈ st.events, 0 ≤ e.1 ∧ e.1 ≤ steps * q)
    · intro e he
      rw [initState_events] at he
      simp only [List.mem_singleton] at he
      subst he
      exact ⟨le_refl 0, hM⟩
    · intro st s hs hP e he
      have hsN : (s : ℤ) < steps := by
        rw [List.mem_range] at hs
        omega
      rcases staccatoStep_events_shape scale q gf s st e he with h | h | h
      · exact hP e h
      · obtain ⟨p, v, _, rfl⟩ := h
        exact hbase s hsN
      · obtain ⟨p, rfl⟩ := h
        exact hstepped s hsN
  · have hfold : ∀ e ∈ ((List.range steps.toNat).foldl
        (fun st s => sustainStep scale q s st) (initState bpm row0)).events,
        0 ≤ e.1 ∧ e.1 ≤ steps * q := by
      apply foldl_inv
        (P := fun st : SchedState => ∀ e ∈ st.events, 0 ≤ e.1 ∧ e.1 ≤ steps * q)
      · intro e he
        rw [initState_events] at he
        simp only [List.mem_singleton] at he
        subst he
        exact ⟨le_refl 0, hM⟩
      · intro st s hs hP e he
        have hsN : (s : ℤ) < steps := by
          rw [List.mem_range] at hs
          omega
        rcases sustainStep_events_shape scale q s st e he with h | h | h
        · exact hP e h
        · obtain ⟨b, _, rfl⟩ := h
          exact hbase s hsN
        · obtain ⟨p, rfl⟩ := h
          exact hbase s hsN
    intro e he
    rw [flushSustain] at he
    rcases List.mem_append.mp he with h | h
    · exact hfold e h
    · rcases List.mem_map.mp h with ⟨p, _, rfl⟩
      exact ⟨hM, le_refl _⟩

/-! ## The delta-time serialization -/

theorem buildTrack_eq_exact :
    ∀ (evs : List Ev) (last : ℤ),
      List.Chain (fun a b : ℤ => a ≤ b) last (evs.map Prod.fst) →
      buildTrack last evs = buildTrackExact last evs := by
  intro evs
  induction evs with
  | nil =>
      intro last _
      rfl
  | cons e rest ih =>
      intro last h
      obtain ⟨t, m⟩ := e
      rw [List.map_cons] at h
      cases h with
      | cons hle hch =>
          rw [buildTrack, buildTrackExact, max_eq_right (by omega), ih t hch]

theorem chain_le_of_pairwise :
    ∀ (l : List Ev) (a : ℤ), (∀ x ∈ l, a ≤ x.1) →
      l.Pairwise (fun u v : Ev => u.1 ≤ v.1) →
      List.Chain (fun x y : ℤ => x ≤ y) a (l.map Prod.fst) := by
  intro l
  induction l with
  | nil =>
      intro a _ _
      exact List.Chain.nil
  | cons f rest ih =>
      intro a ha hp
      rw [List.map_cons]
      rcases List.pairwise_cons.mp hp with ⟨hf, hrest⟩
      exact List.Chain.cons (ha f (by simp)) (ih f.1 (fun x hx => hf x hx) hrest)

/-! ## Claim C3 -/

/-- C3 counterexample: the serialization loop silently clamps a negative
delta to zero (`msg.time = max(0, delta)`), so an event stream containing
a negative delta-tick serializes to exactly the same track as a valid
zero-delta stream — contradicting the claim that a negative delta is
signalled distinctly and is never mistaken for a valid zero-delta event. -/
theorem C3_counterexample :
    buildTrack 0 [((5 : ℤ), MidoMsg.noteOn 0 60 40 0), ((3 : ℤ), MidoMsg.noteOff 0 60 0 0)] =
      buildTrack 0 [((5 : ℤ), MidoMsg.noteOn 0 60 40 0), ((5 : ℤ), MidoMsg.noteOff 0 60 0 0)] ∧
    (3 : ℤ) - 5 < 0 ∧
    ((5 : ℤ), MidoMsg.noteOff 0 60 0 0) ≠ ((3 : ℤ), MidoMsg.noteOff 0 60 0 0) := by
  refine ⟨rfl, by decide, by decide⟩

/-- C3 amended: the serializer clamps via `max(0, delta)` rather than
signalling, but the scheduler sorts its events by tick before the delta
encoding and (for a non-negative tick grid) all ticks are non-negative,
so no delta is ever negative and the clamp never alters the serialized
track: the track equals the clamp-free serialization. -/
theorem C3_no_negative_delta (cfg : RenderConfig) (row0 : List ℕ) (scale : List ℤ)
    (steps : ℤ) (hq : 0 ≤ cfg.q) (hsteps : 0 ≤ steps) :
    buildTrack 0 (sortEvents (scheduleCoreAux (staccatoB cfg) (gateFrac cfg) cfg.q cfg.bpm
        scale row0 steps).events) =
    buildTrackExact 0 (sortEvents (scheduleCoreAux (staccatoB cfg) (gateFrac cfg) cfg.q
        cfg.bpm scale row0 steps).events) := by
  apply buildTrack_eq_exact
  apply chain_le_of_pairwise
  · intro x hx
    have hx2 := (sortEvents_perm _).mem_iff.mp hx
    exact (core_events_bound (staccatoB cfg) (gateFrac cfg) cfg.q cfg.bpm scale row0 steps
      hq (gateFrac_nonneg cfg) (gateFrac_le_one cfg) hsteps x hx2).1
  · exact (sortEvents_sorted _).imp (fun h => by
      rw [evLt_false_iff] at h
      omega)

theorem C3_no_negative_delta_witness :
    buildTrack 0 (sortEvents (scheduleCoreAux
        (staccatoB ⟨120, 480, 240, none, "out"⟩) (gateFrac ⟨120, 480, 240, none, "out"⟩)
        (RenderConfig.q ⟨120, 480, 240, none, "out"⟩)
        (RenderConfig.bpm ⟨120, 480, 240, none, "out"⟩) [60] [1] 1).events) =
    buildTrackExact 0 (sortEvents (scheduleCoreAux
        (staccatoB ⟨120, 480, 240, none, "out"⟩) (gateFrac ⟨120, 480, 240, none, "out"⟩)
        (RenderConfig.q ⟨120, 480, 240, none, "out"⟩)
        (RenderConfig.bpm ⟨120, 480, 240, none, "out"⟩) [60] [1] 1).events) :=
  C3_no_negative_delta ⟨120, 480, 240, none, "out"⟩ [1] [60] 1 (by decide) (by decide)

/-! ## Claim C4 -/

/-- C4 counterexample: a configuration with a negative (hence
non-positive) ticks-per-step value does not fail at all — the step count
is negative, `range` of a negative count is empty, no simulation step
runs, and a track containing only the tempo event is produced. -/
theorem C4_counterexample :
    schedule_events ⟨120, 480, -240, none, "out"⟩ [0, 1] [60, 62] =
      .ok [MidoMsg.setTempo (bpm2tempo 120) 0] := by
  have hsteps : steps_for_8_seconds ⟨120, 480, -240, none, "out"⟩ = .ok (-32) := by
    norm_num [steps_for_8_seconds, seconds_per_step]
  unfold schedule_events
  rw [hsteps]
  rfl

/-- C4 amended: a zero tempo, resolution, or ticks-per-step value makes
the scheduler fail with a `ZeroDivisionError` before any simulation step
(the failure happens while computing the step count); negative values,
however, do not fail fast — they produce a negative step count and an
output without any note events. -/
theorem C4_zero_config_error (cfg : RenderConfig) (row0 : List ℕ) (scale : List ℤ)
    (h : cfg.bpm = 0 ∨ cfg.ppq = 0 ∨ cfg.q = 0) :
    schedule_events cfg row0 scale = .error "ZeroDivisionError" := by
  rcases h with h | h | h
  · simp [schedule_events, steps_for_8_seconds, seconds_per_step, h]
  · by_cases hb : cfg.bpm = 0
    · simp [schedule_events, steps_for_8_seconds, seconds_per_step, hb]
    · simp [schedule_events, steps_for_8_seconds, seconds_per_step, hb, h]
  · by_cases hb : cfg.bpm = 0
    · simp [schedule_events, steps_for_8_seconds, seconds_per_step, hb]
    · by_cases hp : cfg.ppq = 0
      · simp [schedule_events, steps_for_8_seconds, seconds_per_step, hb, hp]
      · simp [schedule_events, steps_for_8_seconds, seconds_per_step, hb, hp, h]

theorem C4_zero_config_error_witness :
    schedule_events ⟨0, 480, 240, none, "out"⟩ [1] [60] = .error "ZeroDivisionError" :=
  C4_zero_config_error ⟨0, 480, 240, none, "out"⟩ [1] [60] (Or.inl rfl)

/-! ## Claim C9 -/

/-- C9: a present but non-positive gate (e.g. `gate = 0.0`) takes the
sustain branch and produces exactly the same output as the identical
configuration with the gate absent. -/
theorem C9_gate_nonpositive (bpm ppq q : ℤ) (fn : String) (g : ℚ) (hg : g ≤ 0)
    (row0 : List ℕ) (scale : List ℤ) :
    schedule_events ⟨bpm, ppq, q, some g, fn⟩ row0 scale =
      schedule_events ⟨bpm, ppq, q, none, fn⟩ row0 scale := by
  have hsb : staccatoB ⟨bpm, ppq, q, some g, fn⟩ = staccatoB ⟨bpm, ppq, q, none, fn⟩ := by
    simp [staccatoB, not_lt.mpr hg]
  have hgf : gateFrac ⟨bpm, ppq, q, some g, fn⟩ = gateFrac ⟨bpm, ppq, q, none, fn⟩ := by
    simp only [gateFrac]
    rw [max_eq_left (le_trans (min_le_right _ _) hg)]
  unfold schedule_events
  rw [hsb, hgf]
  rfl

theorem C9_gate_nonpositive_witness :
    schedule_events ⟨1, 480, 480, some 0, "f"⟩ [1] [60] =
      schedule_events ⟨1, 480, 480, none, "f"⟩ [1] [60] :=
  C9_gate_nonpositive 1 480 480 "f" 0 (le_refl 0) [1] [60]

/-! ## Claim C10 -/

theorem buildTrack_mem :
    ∀ (evs : List Ev) (last : ℤ) (m : MidoMsg), m ∈ buildTrack last evs →
      ∃ e, e ∈ evs ∧ ∃ d, m = setTime e.2 d := by
  intro evs
  induction evs with
  | nil =>
      intro last m hm
      simp [buildTrack] at hm
  | cons e rest ih =>
      intro last m hm
      obtain ⟨t, m0⟩ := e
      rw [buildTrack] at hm
      rcases List.mem_cons.mp hm with h | h
      · exact ⟨(t, m0), by simp, _, h⟩
      · obtain ⟨e2, he2, d, hd⟩ := ih t m h
        exact ⟨e2, by simp [he2], d, hd⟩

theorem setTime_noteOn {m : MidoMsg} {d : ℤ} {ch : ℕ} {p : ℤ} {v : ℕ} {tm : ℤ}
    (h : setTime m d = MidoMsg.noteOn ch p v tm) :
    ∃ tm0, m = MidoMsg.noteOn ch p v tm0 := by
  cases m with
  | setTempo a t => simp [setTime] at h
  | noteOff c n v2 t => simp [setTime] at h
  | noteOn c n v2 t =>
      simp only [setTime, MidoMsg.noteOn.injEq] at h
      obtain ⟨h1, h2, h3, h4⟩ := h
      subst h1
      subst h2
      subst h3
      exact ⟨t, rfl⟩

theorem birthsOf_mem {scale : List ℤ} {row nxt : List ℕ} {b : ℤ × ℕ}
    (hb : b ∈ birthsOf scale row nxt) :
    b.2 < row.length ∧ nxt.getD b.2 0 = 1 ∧ ¬ row.getD b.2 0 = 1 ∧
      b.1 = scale.getD b.2 0 := by
  rw [birthsOf] at hb
  rcases List.mem_map.mp hb with ⟨i, hi, hbi⟩
  rcases List.mem_filter.mp hi with ⟨hir, hcond⟩
  rw [List.mem_range] at hir
  simp only [Bool.and_eq_true, beq_iff_eq, Bool.not_eq_true', beq_eq_false_iff_ne,
    ne_eq] at hcond
  cases hbi
  exact ⟨hir, hcond.1, hcond.2, rfl⟩

theorem deathsOf_mem {scale : List ℤ} {row nxt : List ℕ} {b : ℤ × ℕ}
    (hb : b ∈ deathsOf scale row nxt) :
    b.2 < row.length ∧ row.getD b.2 0 = 1 ∧ ¬ nxt.getD b.2 0 = 1 ∧
      b.1 = scale.getD b.2 0 := by
  rw [deathsOf] at hb
  rcases List.mem_map.mp hb with ⟨i, hi, hbi⟩
  rcases List.mem_filter.mp hi with ⟨hir, hcond⟩
  rw [List.mem_range] at hir
  simp only [Bool.and_eq_true, beq_iff_eq, Bool.not_eq_true', beq_eq_false_iff_ne,
    ne_eq] at hcond
  cases hbi
  exact ⟨hir, hcond.1, hcond.2, rfl⟩

theorem classifyAge_birth {row nxt age : List ℕ} {i : ℕ} (hi : i < row.length)
    (hb : nxt.getD i 0 = 1) (hnb : ¬ row.getD i 0 = 1) :
    (classifyAge row nxt age).getD i 0 = 1 := by
  rw [classifyAge, getD_range_map _ _ hi, if_pos ⟨hb, hnb⟩]

theorem core_velocity (stac : Bool) (gf : ℚ) (q bpm : ℤ) (scale : List ℤ)
    (row0 : List ℕ) (steps : ℤ) :
    ∀ e ∈ (scheduleCoreAux stac gf q bpm scale row0 steps).events,
      ∀ ch p v tm, e.2 = MidoMsg.noteOn ch p v tm → 40 ≤ v ∧ v ≤ 110 := by
  have hinit : ∀ e ∈ (initState bpm row0).events,
      ∀ ch p v tm, e.2 = MidoMsg.noteOn ch p v tm → 40 ≤ v ∧ v ≤ 110 := by
    intro e he ch p v tm hOn
    rw [initState_events] at he
    simp only [List.mem_singleton] at he
    subst he
    simp at hOn
  rw [scheduleCoreAux]
  split_ifs with hst
  · apply foldl_inv (P := fun st : SchedState => ∀ e ∈ st.events,
      ∀ ch p v tm, e.2 = MidoMsg.noteOn ch p v tm → 40 ≤ v ∧ v ≤ 110)
    · exact hinit
    · intro st s hs hP e he ch p v tm hOn
      rcases staccatoStep_events_shape scale q gf s st e he with h | h | h
      · exact hP e h ch p v tm hOn
      · obtain ⟨p2, v2, hv2, rfl⟩ := h
        simp only [MidoMsg.noteOn.injEq] at hOn
        omega
      · obtain ⟨p2, rfl⟩ := h
        simp at hOn
  · have hfold : ∀ e ∈ ((List.range steps.toNat).foldl
        (fun st s => sustainStep scale q s st) (initState bpm row0)).events,
        ∀ ch p v tm, e.2 = MidoMsg.noteOn ch p v tm → 40 ≤ v ∧ v ≤ 110 := by
      apply foldl_inv (P := fun st : SchedState => ∀ e ∈ st.events,
        ∀ ch p v tm, e.2 = MidoMsg.noteOn ch p v tm → 40 ≤ v ∧ v ≤ 110)
      · exact hinit
      · intro st s hs hP e he ch p v tm hOn
        rcases sustainStep_events_shape scale q s st e he with h | h | h
        · exact hP e h ch p v tm hOn
        · obtain ⟨b, hb, rfl⟩ := h
          obtain ⟨hlt, hb1, hb2, _⟩ := birthsOf_mem hb
          rw [classifyAge_birth hlt hb1 hb2] at hOn
          simp only [MidoMsg.noteOn.injEq] at hOn
          omega
        · obtain ⟨p2, rfl⟩ := h
          simp at hOn
    intro e he ch p v tm hOn
    rw [flushSustain] at he
    rcases List.mem_append.mp he with h | h
    · exact hfold e h ch p v tm hOn
    · rcases List.mem_map.mp h with ⟨p2, _, rfl⟩
      simp at hOn

/-- C10: every `note_on` in the serialized track carries a velocity
`min(30 + 10*age, 110)` computed with `age ≥ 1`, hence a velocity in
`[40, 110]` — a valid MIDI velocity. -/
theorem C10_velocity_range (cfg : RenderConfig) (row0 : List ℕ) (scale : List ℤ)
    (track : List MidoMsg) (hok : schedule_events cfg row0 scale = .ok track)
    (m : MidoMsg) (hm : m ∈ track) (ch : ℕ) (p : ℤ) (v : ℕ) (tm : ℤ)
    (hOn : m = MidoMsg.noteOn ch p v tm) : 40 ≤ v ∧ v ≤ 110 := by
  unfold schedule_events at hok
  cases hsteps : steps_for_8_seconds cfg with
  | error e =>
      rw [hsteps] at hok
      simp at hok
  | ok steps =>
      rw [hsteps] at hok
      simp only [Except.ok.injEq] at hok
      subst hok
      subst hOn
      obtain ⟨e, he, d, hd⟩ := buildTrack_mem _ _ _ hm
      obtain ⟨tm0, he2⟩ := setTime_noteOn hd.symm
      exact core_velocity (staccatoB cfg) (gateFrac cfg) cfg.q cfg.bpm scale row0 steps e
        ((sortEvents_perm _).mem_iff.mp he) ch p v tm0 he2

theorem C10_velocity_range_witness : 40 ≤ 40 ∧ 40 ≤ 110 :=
  C10_velocity_range ⟨10, 480, 480, none, "f"⟩ [1, 0] [60, 61]
    [MidoMsg.setTempo (bpm2tempo 10) 0, MidoMsg.noteOn 0 61 40 0,
      MidoMsg.noteOff 0 61 0 480]
    (by
      have hsteps : steps_for_8_seconds ⟨10, 480, 480, none, "f"⟩ = .ok 1 := by
        norm_num [steps_for_8_seconds, seconds_per_step]
      unfold schedule_events
      rw [hsteps]
      rfl)
    (MidoMsg.noteOn 0 61 40 0)
    (List.mem_cons_of_mem _ (List.mem_cons_self _ _)) 0 61 40 0 rfl

/-! ## Claim C7 -/

theorem onsOf_append (a b : List Ev) : onsOf (a ++ b) = onsOf a ++ onsOf b := by
  simp [onsOf]

theorem offsOf_append (a b : List Ev) : offsOf (a ++ b) = offsOf a ++ offsOf b := by
  simp [offsOf]

theorem staccatoCols_pairing (scale : List ℤ) (row nxt : List ℕ) (base offTick d : ℤ)
    (hoff : offTick = base + d) :
    ∀ (idxs : List ℕ) (acc : List ℕ × List Ev),
      offsOf acc.2 = (onsOf acc.2).map (fun pr => (pr.1 + d, pr.2)) →
      offsOf (staccatoCols scale row nxt base offTick idxs acc).2 =
        (onsOf (staccatoCols scale row nxt base offTick idxs acc).2).map
          (fun pr => (pr.1 + d, pr.2)) := by
  intro idxs
  induction idxs with
  | nil =>
      intro acc h
      exact h
  | cons i rest ih =>
      intro acc h
      rw [staccatoCols]
      by_cases hni : nxt.getD i 0 = 1
      · rw [if_pos hni]
        apply ih
        show offsOf (acc.2 ++ _) = (onsOf (acc.2 ++ _)).map _
        rw [offsOf_append, onsOf_append, h, List.map_append]
        congr 1
        subst hoff
        simp [onsOf, offsOf]
      · rw [if_neg hni]
        exact ih (acc.1.set i 0, acc.2) h

theorem core_staccato_pairing (gf : ℚ) (q bpm : ℤ) (scale : List ℤ) (row0 : List ℕ)
    (steps : ℤ) :
    offsOf (scheduleCoreAux true gf q bpm scale row0 steps).events =
      (onsOf (scheduleCoreAux true gf q bpm scale row0 steps).events).map
        (fun pr => (pr.1 + pythonInt ((q : ℚ) * gf), pr.2)) := by
  rw [scheduleCoreAux, if_pos rfl]
  apply foldl_inv (P := fun st : SchedState => offsOf st.events =
    (onsOf st.events).map (fun pr => (pr.1 + pythonInt ((q : ℚ) * gf), pr.2)))
  · rw [initState_events]
    rfl
  · intro st s hs hP
    rw [staccatoStep]
    exact staccatoCols_pairing scale st.row (next_rule190_toroidal st.row) _ _ _ rfl _ _ hP

/-- C7 counterexample: with step length `T = 100000` ticks and gate
`g = 0.99995 ∈ (0, 1)`, the scheduler clamps the gate to `0.9999`, so the
staccato stop is scheduled `⌊T·0.9999⌋ = 99990` ticks after its start —
not `⌊T·g⌋ = 99995` ticks as the claim states. -/
theorem C7_counterexample :
    steps_for_8_seconds ⟨10, 100000, 100000, some (99995 / 100000), "out"⟩ = .ok 1 ∧
    offsOf (scheduleCoreAux (staccatoB ⟨10, 100000, 100000, some (99995 / 100000), "out"⟩)
        (gateFrac ⟨10, 100000, 100000, some (99995 / 100000), "out"⟩)
        100000 10 [60] [1] 1).events = [(99990, 60)] ∧
    onsOf (scheduleCoreAux (staccatoB ⟨10, 100000, 100000, some (99995 / 100000), "out"⟩)
        (gateFrac ⟨10, 100000, 100000, some (99995 / 100000), "out"⟩)
        100000 10 [60] [1] 1).events = [(0, 60)] ∧
    (99990 : ℤ) ≠ 0 + ⌊((100000 : ℤ) : ℚ) * (99995 / 100000)⌋ := by
  have hsb : staccatoB ⟨10, 100000, 100000, some (99995 / 100000), "out"⟩ = true := by
    simp only [staccatoB, decide_eq_true_eq]
    norm_num
  have hgf : gateFrac ⟨10, 100000, 100000, some (99995 / 100000), "out"⟩ =
      9999 / 10000 := by
    simp only [gateFrac]
    norm_num
  have hq1 : (((100000 : ℤ) : ℚ) * (9999 / 10000)) = ((99990 : ℤ) : ℚ) := by norm_num
  have hpi : pythonInt (((100000 : ℤ) : ℚ) * (9999 / 10000)) = 99990 := by
    rw [pythonInt, if_pos (by rw [hq1]; norm_num), hq1, Int.floor_intCast]
  have hcore : scheduleCoreAux true (9999 / 10000 : ℚ) 100000 10 [60] [1] 1 =
      ⟨[1], [1], [(0, MidoMsg.setTempo (bpm2tempo 10) 0), (0, MidoMsg.noteOn 0 60 40 0),
        (99990, MidoMsg.noteOff 0 60 0 0)], []⟩ := by
    rw [scheduleCoreAux, if_pos rfl]
    rw [show List.range (1 : ℤ).toNat = [0] from rfl]
    rw [List.foldl_cons, List.foldl_nil]
    simp only [staccatoStep]
    rw [hpi]
    rfl
  refine ⟨?_, ?_, ?_, ?_⟩
  · norm_num [steps_for_8_seconds, seconds_per_step]
  · rw [hsb, hgf, hcore]
    rfl
  · rw [hsb, hgf, hcore]
    rfl
  · have hfl : ⌊((100000 : ℤ) : ℚ) * (99995 / 100000)⌋ = 99995 := by
      have h1 : (((100000 : ℤ) : ℚ) * (99995 / 100000)) = ((99995 : ℤ) : ℚ) := by norm_num
      rw [h1, Int.floor_intCast]
    rw [hfl]
    norm_num

/-- C7 amended: in staccato mode with gate `g ∈ (0, 1)`, every note-start
has its matching note-stop scheduled exactly
`⌊ticks-per-step · min(g, 0.9999)⌋` ticks later (the code clamps the gate
fraction to at most `0.9999` before computing the stop offset): the
`(tick, note)` stream of the stop events equals the start stream shifted
by that constant. -/
theorem C7_staccato_gate (cfg : RenderConfig) (row0 : List ℕ) (scale : List ℤ) (steps : ℤ)
    (g : ℚ) (hg : cfg.gate = some g) (h0 : 0 < g) (h1 : g < 1) (hq : 0 ≤ cfg.q) :
    offsOf (scheduleCoreAux (staccatoB cfg) (gateFrac cfg) cfg.q cfg.bpm scale row0
        steps).events =
      (onsOf (scheduleCoreAux (staccatoB cfg) (gateFrac cfg) cfg.q cfg.bpm scale row0
          steps).events).map
        (fun pr => (pr.1 + ⌊(cfg.q : ℚ) * min g (9999 / 10000)⌋, pr.2)) := by
  have hmin : (0 : ℚ) < min g (9999 / 10000) := lt_min h0 (by norm_num)
  have hsb : staccatoB cfg = true := by
    simp [staccatoB, hg, h0]
  have hgf : gateFrac cfg = min g (9999 / 10000) := by
    simp only [gateFrac, hg]
    rw [min_comm]
    exact max_eq_right (le_of_lt hmin)
  have hpi : pythonInt ((cfg.q : ℚ) * min g (9999 / 10000)) =
      ⌊(cfg.q : ℚ) * min g (9999 / 10000)⌋ := by
    rw [pythonInt, if_pos (mul_nonneg (by exact_mod_cast hq) (le_of_lt hmin))]
  rw [hsb, hgf, ← hpi]
  exact core_staccato_pairing _ _ _ _ _ _

theorem C7_staccato_gate_witness :
    offsOf (scheduleCoreAux (staccatoB ⟨10, 480, 480, some (1 / 2), "f"⟩)
        (gateFrac ⟨10, 480, 480, some (1 / 2), "f"⟩)
        (RenderConfig.q ⟨10, 480, 480, some (1 / 2), "f"⟩)
        (RenderConfig.bpm ⟨10, 480, 480, some (1 / 2), "f"⟩) [60] [1] 1).events =
      (onsOf (scheduleCoreAux (staccatoB ⟨10, 480, 480, some (1 / 2), "f"⟩)
          (gateFrac ⟨10, 480, 480, some (1 / 2), "f"⟩)
          (RenderConfig.q ⟨10, 480, 480, some (1 / 2), "f"⟩)
          (RenderConfig.bpm ⟨10, 480, 480, some (1 / 2), "f"⟩) [60] [1] 1).events).map
        (fun pr => (pr.1 +
          ⌊((RenderConfig.q ⟨10, 480, 480, some (1 / 2), "f"⟩ : ℤ) : ℚ) *
            min (1 / 2) (9999 / 10000)⌋, pr.2)) :=
  C7_staccato_gate ⟨10, 480, 480, some (1 / 2), "f"⟩ [1] [60] 1 (1 / 2) rfl
    (by norm_num) (by norm_num) (by decide)

/-! ## Claim C5: counting note events in sustain mode -/

theorem countOn_append (p : ℤ) (a b : List Ev) :
    countOn p (a ++ b) = countOn p a + countOn p b := by
  simp [countOn]

theorem countOff_append (p : ℤ) (a b : List Ev) :
    countOff p (a ++ b) = countOff p a + countOff p b := by
  simp [countOff]

theorem countOn_single_off (p x t : ℤ) : countOn p [(t, MidoMsg.noteOff 0 x 0 0)] = 0 := rfl

theorem countOff_single_on (p x t tm : ℤ) (v : ℕ) :
    countOff p [(t, MidoMsg.noteOn 0 x v tm)] = 0 := rfl

theorem countOff_single_off (p x t : ℤ) :
    countOff p [(t, MidoMsg.noteOff 0 x 0 0)] = if x = p then 1 else 0 := by
  simp [countOff, offP, List.countP_cons]

theorem countOn_single_on (p x t tm : ℤ) (v : ℕ) :
    countOn p [(t, MidoMsg.noteOn 0 x v tm)] = if x = p then 1 else 0 := by
  simp [countOn, onP, List.countP_cons]

theorem emitDeaths_spec (base : ℤ) :
    ∀ (l : List (ℤ × ℕ)) (evs : List Ev) (act : List ℤ), act.Nodup →
      (emitDeaths base l evs act).2.Nodup ∧
      (∀ p : ℤ, p ∈ (emitDeaths base l evs act).2 ↔
        p ∈ act ∧ ¬ p ∈ l.map Prod.fst) ∧
      (∀ p : ℤ, countOn p (emitDeaths base l evs act).1 = countOn p evs) ∧
      (∀ p : ℤ, countOff p (emitDeaths base l evs act).1 =
        countOff p evs + (if p ∈ act ∧ p ∈ l.map Prod.fst then 1 else 0)) := by
  intro l
  induction l with
  | nil =>
      intro evs act hnd
      refine ⟨hnd, fun p => by simp [emitDeaths], fun p => rfl, fun p => by simp [emitDeaths]⟩
  | cons d rest ih =>
      intro evs act hnd
      rw [emitDeaths]
      by_cases hd : d.1 ∈ act
      · rw [if_pos hd]
        obtain ⟨ihn, ihm, ihon, ihoff⟩ := ih (evs ++ [(base, .noteOff 0 d.1 0 0)])
          (act.erase d.1) (hnd.erase d.1)
        refine ⟨ihn, fun p => ?_, fun p => ?_, fun p => ?_⟩
        · rw [ihm p, List.Nodup.mem_erase_iff hnd, List.map_cons, List.mem_cons]
          constructor
          · rintro ⟨⟨hne, hmem⟩, hnr⟩
            exact ⟨hmem, fun hc => hc.elim hne hnr⟩
          · rintro ⟨hmem, hc⟩
            exact ⟨⟨fun he => hc (Or.inl he), hmem⟩, fun hr => hc (Or.inr hr)⟩
        · rw [ihon p, countOn_append, countOn_single_off]
          omega
        · rw [ihoff p, countOff_append, countOff_single_off]
          simp only [List.map_cons, List.mem_cons]
          by_cases h1 : p = d.1
          · subst h1
            rw [if_pos rfl]
            rw [if_neg (fun hc => ((List.Nodup.mem_erase_iff hnd).mp hc.1).1 rfl)]
            rw [if_pos ⟨hd, Or.inl rfl⟩]
          · rw [if_neg (fun he => h1 he.symm)]
            have hiff : (p ∈ act.erase d.1 ∧ p ∈ rest.map Prod.fst) ↔
                (p ∈ act ∧ (p = d.1 ∨ p ∈ rest.map Prod.fst)) := by
              rw [List.Nodup.mem_erase_iff hnd]
              constructor
              · rintro ⟨⟨_, hm⟩, hr⟩
                exact ⟨hm, Or.inr hr⟩
              · rintro ⟨hm, hc⟩
                exact ⟨⟨h1, hm⟩, hc.resolve_left h1⟩
            rw [if_congr hiff rfl rfl]
            omega
      · rw [if_neg hd]
        obtain ⟨ihn, ihm, ihon, ihoff⟩ := ih evs act hnd
        refine ⟨ihn, fun p => ?_, ihon, fun p => ?_⟩
        · rw [ihm p, List.map_cons, List.mem_cons]
          constructor
          · rintro ⟨hm, hr⟩
            exact ⟨hm, fun hc => hc.elim (fun hc1 => hd (hc1 ▸ hm)) hr⟩
          · rintro ⟨hm, hc⟩
            exact ⟨hm, fun hr => hc (Or.inr hr)⟩
        · rw [ihoff p]
          simp only [List.map_cons, List.mem_cons]
          have hiff : (p ∈ act ∧ p ∈ rest.map Prod.fst) ↔
              (p ∈ act ∧ (p = d.1 ∨ p ∈ rest.map Prod.fst)) := by
            constructor
            · rintro ⟨hm, hr⟩
              exact ⟨hm, Or.inr hr⟩
            · rintro ⟨hm, hc⟩
              refine ⟨hm, hc.resolve_left ?_⟩
              intro he
              exact hd (he ▸ hm)
          rw [if_congr hiff rfl rfl]

theorem emitBirths_spec (base : ℤ) (age : List ℕ) :
    ∀ (l : List (ℤ × ℕ)) (evs : List Ev) (act : List ℤ),
      (l.map Prod.fst).Nodup → (∀ b ∈ l, ¬ b.1 ∈ act) → act.Nodup →
      (emitBirths base age l evs act).2.Nodup ∧
      (∀ p : ℤ, p ∈ (emitBirths base age l evs act).2 ↔
        p ∈ act ∨ p ∈ l.map Prod.fst) ∧
      (∀ p : ℤ, countOn p (emitBirths base age l evs act).1 =
        countOn p evs + (if p ∈ l.map Prod.fst then 1 else 0)) ∧
      (∀ p : ℤ, countOff p (emitBirths base age l evs act).1 = countOff p evs) := by
  intro l
  induction l with
  | nil =>
      intro evs act _ _ hnd
      refine ⟨hnd, fun p => by simp [emitBirths], fun p => by simp [emitBirths],
        fun p => rfl⟩
  | cons b rest ih =>
      intro evs act hnodup hnew hnd
      rw [emitBirths]
      have hbn : ¬ b.1 ∈ act := hnew b (by simp)
      have haddN : addNote act b.1 = act ++ [b.1] := by rw [addNote, if_neg hbn]
      have hndA : (addNote act b.1).Nodup := by
        rw [haddN, ← List.concat_eq_append]
        exact List.Nodup.concat hbn hnd
      have hmemA : ∀ p : ℤ, p ∈ addNote act b.1 ↔ p ∈ act ∨ p = b.1 := by
        intro p
        rw [haddN]
        simp
      have hnodup2 : (rest.map Prod.fst).Nodup := by
        rw [List.map_cons] at hnodup
        exact hnodup.of_cons
      have hhead : ¬ b.1 ∈ rest.map Prod.fst := by
        rw [List.map_cons] at hnodup
        exact (List.nodup_cons.mp hnodup).1
      have hnew2 : ∀ b2 ∈ rest, ¬ b2.1 ∈ addNote act b.1 := by
        intro b2 hb2 hc
        rw [hmemA] at hc
        rcases hc with hc | hc
        · exact hnew b2 (by simp [hb2]) hc
        · exact hhead (hc ▸ (List.mem_map.mpr ⟨b2, hb2, rfl⟩))
      obtain ⟨ihn, ihm, ihon, ihoff⟩ := ih
        (evs ++ [(base, .noteOn 0 b.1 (min (30 + 10 * age.getD b.2 0) 110) 0)])
        (addNote act b.1) hnodup2 hnew2 hndA
      refine ⟨ihn, fun p => ?_, fun p => ?_, fun p => ?_⟩
      · rw [ihm p, hmemA p, List.map_cons, List.mem_cons]
        tauto
      · rw [ihon p, countOn_append, countOn_single_on]
        simp only [List.map_cons, List.mem_cons]
        by_cases h1 : p = b.1
        · subst h1
          rw [if_pos rfl, if_pos (Or.inl rfl), if_neg hhead]
        · rw [if_neg (fun he => h1 he.symm)]
          have hiff : ((p = b.1) ∨ p ∈ rest.map Prod.fst) ↔ (p ∈ rest.map Prod.fst) := by
            constructor
            · rintro (h | h)
              · exact absurd h h1
              · exact h
            · exact Or.inr
          rw [if_congr hiff rfl rfl]
          omega
      · rw [ihoff p, countOff_append, countOff_single_on]
        omega

theorem mem_deathsOf_intro {scale : List ℤ} {row nxt : List ℕ} {i : ℕ}
    (hi : i < row.length) (h1 : row.getD i 0 = 1) (h2 : ¬ nxt.getD i 0 = 1) :
    (scale.getD i 0, i) ∈ deathsOf scale row nxt := by
  rw [deathsOf]
  apply List.mem_map.mpr
  refine ⟨i, ?_, rfl⟩
  rw [List.mem_filter]
  refine ⟨List.mem_range.mpr hi, ?_⟩
  have h2b : (nxt.getD i 0 == 1) = false := beq_eq_false_iff_ne.mpr h2
  rw [h1, h2b]
  rfl

theorem birthNotes_nodup {scale : List ℤ} {row nxt : List ℕ}
    (hinj : ∀ i j, i < row.length → j < row.length →
      scale.getD i 0 = scale.getD j 0 → i = j) :
    ((birthsOf scale row nxt).map Prod.fst).Nodup := by
  rw [birthsOf, List.map_map]
  apply List.Nodup.map_on
  · intro x hx y hy hxy
    rcases List.mem_filter.mp hx with ⟨hxr, _⟩
    rcases List.mem_filter.mp hy with ⟨hyr, _⟩
    rw [List.mem_range] at hxr hyr
    exact hinj x y hxr hyr hxy
  · exact (List.nodup_range _).filter _

theorem insInt_perm (x : ℤ) : ∀ l, List.Perm (insInt x l) (x :: l) := by
  intro l
  induction l with
  | nil => exact List.Perm.refl _
  | cons y rest ih =>
      rw [insInt]
      split_ifs
      · exact (ih.cons y).trans (List.Perm.swap x y rest)
      · exact List.Perm.refl _

theorem sortInts_perm (l : List ℤ) : List.Perm (sortInts l) l := by
  induction l with
  | nil => exact List.Perm.refl _
  | cons x rest ih =>
      have h1 : sortInts (x :: rest) = insInt x (sortInts rest) := rfl
      rw [h1]
      exact (insInt_perm x (sortInts rest)).trans (ih.cons x)

theorem flushSustain_spec (q steps : ℤ) (st : SchedState) (h2 : st.active.Nodup) :
    (flushSustain q steps st).active = [] ∧
    (∀ p, countOn p (flushSustain q steps st).events = countOn p st.events) ∧
    (∀ p, countOff p (flushSustain q steps st).events =
      countOff p st.events + (if p ∈ st.active then 1 else 0)) ∧
    (∀ p ∈ st.active,
      (steps * q, MidoMsg.noteOff 0 p 0 0) ∈ (flushSustain q steps st).events) := by
  have hev : (flushSustain q steps st).events = st.events ++
      (sortInts st.active).map (fun n => (steps * q, MidoMsg.noteOff 0 n 0 0)) := rfl
  refine ⟨rfl, fun p => ?_, fun p => ?_, fun p hp => ?_⟩
  · rw [hev, countOn_append]
    have hz : countOn p ((sortInts st.active).map
        (fun n => (steps * q, MidoMsg.noteOff 0 n 0 0))) = 0 := by
      rw [countOn, List.countP_map]
      apply List.countP_eq_zero.mpr
      intro a _
      simp [onP, Function.comp]
    omega
  · rw [hev, countOff_append]
    have hc : countOff p ((sortInts st.active).map
        (fun n => (steps * q, MidoMsg.noteOff 0 n 0 0))) =
        if p ∈ st.active then 1 else 0 := by
      rw [countOff, List.countP_map]
      rw [show (List.countP ((offP p) ∘ fun n => ((steps * q : ℤ),
        MidoMsg.noteOff 0 n 0 0)) (sortInts st.active)) =
        (sortInts st.active).count p from rfl]
      rw [(sortInts_perm st.active).count_eq]
      by_cases hp : p ∈ st.active
      · rw [if_pos hp, List.count_eq_one_of_mem h2 hp]
      · rw [if_neg hp, List.count_eq_zero_of_not_mem hp]
    omega
  · rw [hev]
    apply List.mem_append.mpr
    right
    exact List.mem_map.mpr ⟨p, (sortInts_perm st.active).mem_iff.mpr hp, rfl⟩

theorem sustainStep_inv (scale : List ℤ) (q : ℤ) (s : ℕ) (W : ℕ)
    (hinj : ∀ i j, i < W → j < W → scale.getD i 0 = scale.getD j 0 → i = j)
    (st : SchedState) (h1 : st.row.length = W) (h2 : st.active.Nodup)
    (h3 : ∀ p ∈ st.active, ∃ i, i < W ∧ scale.getD i 0 = p ∧ st.row.getD i 0 = 1)
    (h4 : ∀ p, countOn p st.events = countOff p st.events +
      (if p ∈ st.active then 1 else 0)) :
    (sustainStep scale q s st).row.length = W ∧
    (sustainStep scale q s st).active.Nodup ∧
    (∀ p ∈ (sustainStep scale q s st).active, ∃ i, i < W ∧ scale.getD i 0 = p ∧
      (sustainStep scale q s st).row.getD i 0 = 1) ∧
    (∀ p, countOn p (sustainStep scale q s st).events =
      countOff p (sustainStep scale q s st).events +
        (if p ∈ (sustainStep scale q s st).active then 1 else 0)) := by
  have hinj2 : ∀ i j, i < st.row.length → j < st.row.length →
      scale.getD i 0 = scale.getD j 0 → i = j := by
    intro i j hi hj hij
    exact hinj i j (h1 ▸ hi) (h1 ▸ hj) hij
  obtain ⟨dn, dm, don, doff⟩ := emitDeaths_spec ((s : ℤ) * q)
    (deathsOf scale st.row (next_rule190_toroidal st.row)) st.events st.active h2
  have hAB : ∀ p, p ∈ (birthsOf scale st.row (next_rule190_toroidal st.row)).map
      Prod.fst → ¬ p ∈ st.active := by
    intro p hp hA
    rcases List.mem_map.mp hp with ⟨b, hb, rfl⟩
    obtain ⟨i, hiW, hip, hir⟩ := h3 b.1 hA
    obtain ⟨hbW, hb1, hb2, hbp⟩ := birthsOf_mem hb
    have hieq : i = b.2 := hinj i b.2 hiW (h1 ▸ hbW) (by rw [hip, hbp])
    rw [hieq] at hir
    exact hb2 hir
  have hbnew : ∀ b ∈ birthsOf scale st.row (next_rule190_toroidal st.row),
      ¬ b.1 ∈ (emitDeaths ((s : ℤ) * q)
        (deathsOf scale st.row (next_rule190_toroidal st.row)) st.events st.active).2 :=
    fun b hb hc => hAB b.1 (List.mem_map.mpr ⟨b, hb, rfl⟩) ((dm b.1).mp hc).1
  obtain ⟨bn, bm, bon, boff⟩ := emitBirths_spec ((s : ℤ) * q)
    (classifyAge st.row (next_rule190_toroidal st.row) st.age)
    (birthsOf scale st.row (next_rule190_toroidal st.row))
    (emitDeaths ((s : ℤ) * q) (deathsOf scale st.row (next_rule190_toroidal st.row))
      st.events st.active).1
    (emitDeaths ((s : ℤ) * q) (deathsOf scale st.row (next_rule190_toroidal st.row))
      st.events st.active).2
    (birthNotes_nodup hinj2) hbnew dn
  have hrow : (sustainStep scale q s st).row = next_rule190_toroidal st.row := rfl
  have hact : (sustainStep scale q s st).active = (emitBirths ((s : ℤ) * q)
      (classifyAge st.row (next_rule190_toroidal st.row) st.age)
      (birthsOf scale st.row (next_rule190_toroidal st.row))
      (emitDeaths ((s : ℤ) * q) (deathsOf scale st.row (next_rule190_toroidal st.row))
        st.events st.active).1
      (emitDeaths ((s : ℤ) * q) (deathsOf scale st.row (next_rule190_toroidal st.row))
        st.events st.active).2).2 := rfl
  have hev : (sustainStep scale q s st).events = (emitBirths ((s : ℤ) * q)
      (classifyAge st.row (next_rule190_toroidal st.row) st.age)
      (birthsOf scale st.row (next_rule190_toroidal st.row))
      (emitDeaths ((s : ℤ) * q) (deathsOf scale st.row (next_rule190_toroidal st.row))
        st.events st.active).1
      (emitDeaths ((s : ℤ) * q) (deathsOf scale st.row (next_rule190_toroidal st.row))
        st.events st.active).2).1 := rfl
  refine ⟨by rw [hrow, next_toroidal_length, h1], by rw [hact]; exact bn, ?_, ?_⟩
  · intro p hp
    rw [hact, bm p] at hp
    rcases hp with hp | hp
    · rw [dm p] at hp
      obtain ⟨hpa, hpd⟩ := hp
      obtain ⟨i, hiW, hip, hir⟩ := h3 p hpa
      refine ⟨i, hiW, hip, ?_⟩
      rw [hrow]
      by_contra hni
      apply hpd
      apply List.mem_map.mpr
      exact ⟨(scale.getD i 0, i),
        mem_deathsOf_intro (h1.symm ▸ hiW) hir hni, by rw [hip]⟩
    · rcases List.mem_map.mp hp with ⟨b, hb, rfl⟩
      obtain ⟨hbW, hb1, hb2, hbp⟩ := birthsOf_mem hb
      exact ⟨b.2, h1 ▸ hbW, hbp.symm, by rw [hrow]; exact hb1⟩
  · intro p
    rw [hev, hact, bon p, don p, boff p, doff p, h4 p]
    have hiffact : (p ∈ (emitBirths ((s : ℤ) * q)
        (classifyAge st.row (next_rule190_toroidal st.row) st.age)
        (birthsOf scale st.row (next_rule190_toroidal st.row))
        (emitDeaths ((s : ℤ) * q) (deathsOf scale st.row (next_rule190_toroidal st.row))
          st.events st.active).1
        (emitDeaths ((s : ℤ) * q) (deathsOf scale st.row (next_rule190_toroidal st.row))
          st.events st.active).2).2) ↔
        ((p ∈ st.active ∧ ¬ p ∈ (deathsOf scale st.row
          (next_rule190_toroidal st.row)).map Prod.fst) ∨
          p ∈ (birthsOf scale st.row (next_rule190_toroidal st.row)).map Prod.fst) := by
      rw [bm p, dm p]
    rw [if_congr hiffact rfl rfl]
    by_cases hB : p ∈ (birthsOf scale st.row (next_rule190_toroidal st.row)).map Prod.fst
    · have hA : ¬ p ∈ st.active := hAB p hB
      rw [if_neg hA, if_pos hB, if_neg (fun hc : p ∈ st.active ∧ _ => hA hc.1),
        if_pos (Or.inr hB)]
    · by_cases hA : p ∈ st.active
      · by_cases hD : p ∈ (deathsOf scale st.row (next_rule190_toroidal st.row)).map
            Prod.fst
        · rw [if_pos hA, if_neg hB, if_pos ⟨hA, hD⟩,
            if_neg (fun hc => hc.elim (fun hc1 => hc1.2 hD) hB)]
        · rw [if_pos hA, if_neg hB, if_neg (fun hc : p ∈ st.active ∧ _ => hD hc.2),
            if_pos (Or.inl ⟨hA, hD⟩)]
      · rw [if_neg hA, if_neg hB, if_neg (fun hc : p ∈ st.active ∧ _ => hA hc.1),
          if_neg (fun hc => hc.elim (fun hc1 => hA hc1.1) hB)]

/-- C5: in sustain mode, after the configured number of steps the final
flush emits a `note_off` at exactly tick `steps * q` for every pitch
still in the active set, the active set is empty when scheduling
completes, every pitch has as many `note_off` as `note_on` events, and
every event lies at or before the final tick.  The hypothesis `hinj`
states that distinct columns carry distinct pitches, which holds for the
scale the driver builds. -/
theorem C5_sustain_flush (cfg : RenderConfig) (row0 : List ℕ) (scale : List ℤ)
    (steps : ℤ) (hgate : cfg.gate = none)
    (hinj : ∀ i j, i < row0.length → j < row0.length →
      scale.getD i 0 = scale.getD j 0 → i = j)
    (hq : 0 ≤ cfg.q) (hsteps : 0 ≤ steps) :
    (scheduleCoreAux (staccatoB cfg) (gateFrac cfg) cfg.q cfg.bpm scale row0
        steps).active = [] ∧
    (∀ p, countOn p (scheduleCoreAux (staccatoB cfg) (gateFrac cfg) cfg.q cfg.bpm scale
        row0 steps).events =
      countOff p (scheduleCoreAux (staccatoB cfg) (gateFrac cfg) cfg.q cfg.bpm scale
        row0 steps).events) ∧
    (∀ e ∈ (scheduleCoreAux (staccatoB cfg) (gateFrac cfg) cfg.q cfg.bpm scale row0
        steps).events, e.1 ≤ steps * cfg.q) ∧
    (∀ p, p ∈ ((List.range steps.toNat).foldl (fun st s => sustainStep scale cfg.q s st)
        (initState cfg.bpm row0)).active →
      (steps * cfg.q, MidoMsg.noteOff 0 p 0 0) ∈
        (scheduleCoreAux (staccatoB cfg) (gateFrac cfg) cfg.q cfg.bpm scale row0
          steps).events) := by
  have hsb : staccatoB cfg = false := by simp [staccatoB, hgate]
  have hcore : scheduleCoreAux false (gateFrac cfg) cfg.q cfg.bpm scale row0 steps =
      flushSustain cfg.q steps ((List.range steps.toNat).foldl
        (fun st s => sustainStep scale cfg.q s st) (initState cfg.bpm row0)) := by
    rw [scheduleCoreAux, if_neg Bool.false_ne_true]
  have hbound := core_events_bound false (gateFrac cfg) cfg.q cfg.bpm scale row0 steps
    hq (gateFrac_nonneg cfg) (gateFrac_le_one cfg) hsteps
  have hmid := foldl_inv
    (P := fun st : SchedState => st.row.length = row0.length ∧ st.active.Nodup ∧
      (∀ p ∈ st.active, ∃ i, i < row0.length ∧ scale.getD i 0 = p ∧
        st.row.getD i 0 = 1) ∧
      (∀ p, countOn p st.events = countOff p st.events +
        (if p ∈ st.active then 1 else 0)))
    (fun st s => sustainStep scale cfg.q s st) (List.range steps.toNat)
    (initState cfg.bpm row0)
    ⟨rfl, List.nodup_nil, fun p hp => absurd hp (List.not_mem_nil p), fun p => rfl⟩
    (fun st s _ hP =>
      sustainStep_inv scale cfg.q s row0.length hinj st hP.1 hP.2.1 hP.2.2.1 hP.2.2.2)
  obtain ⟨m1, m2, m3, m4⟩ := hmid
  obtain ⟨f1, f2, f3, f4⟩ := flushSustain_spec cfg.q steps
    ((List.range steps.toNat).foldl (fun st s => sustainStep scale cfg.q s st)
      (initState cfg.bpm row0)) m2
  rw [hsb, hcore]
  refine ⟨f1, fun p => ?_, fun e he => ?_, fun p hp => f4 p hp⟩
  · rw [f2 p, f3 p, m4 p]
  · rw [hcore] at hbound
    exact (hbound e he).2

theorem C5_sustain_flush_witness :
    (scheduleCoreAux (staccatoB ⟨10, 480, 480, none, "f"⟩)
        (gateFrac ⟨10, 480, 480, none, "f"⟩)
        (RenderConfig.q ⟨10, 480, 480, none, "f"⟩)
        (RenderConfig.bpm ⟨10, 480, 480, none, "f"⟩) [60, 61] [1, 0] 1).active = [] ∧
    (∀ p, countOn p (scheduleCoreAux (staccatoB ⟨10, 480, 480, none, "f"⟩)
        (gateFrac ⟨10, 480, 480, none, "f"⟩)
        (RenderConfig.q ⟨10, 480, 480, none, "f"⟩)
        (RenderConfig.bpm ⟨10, 480, 480, none, "f"⟩) [60, 61] [1, 0] 1).events =
      countOff p (scheduleCoreAux (staccatoB ⟨10, 480, 480, none, "f"⟩)
        (gateFrac ⟨10, 480, 480, none, "f"⟩)
        (RenderConfig.q ⟨10, 480, 480, none, "f"⟩)
        (RenderConfig.bpm ⟨10, 480, 480, none, "f"⟩) [60, 61] [1, 0] 1).events) ∧
    (∀ e ∈ (scheduleCoreAux (staccatoB ⟨10, 480, 480, none, "f"⟩)
        (gateFrac ⟨10, 480, 480, none, "f"⟩)
        (RenderConfig.q ⟨10, 480, 480, none, "f"⟩)
        (RenderConfig.bpm ⟨10, 480, 480, none, "f"⟩) [60, 61] [1, 0] 1).events,
      e.1 ≤ 1 * RenderConfig.q ⟨10, 480, 480, none, "f"⟩) ∧
    (∀ p, p ∈ ((List.range (1 : ℤ).toNat).foldl
        (fun st s => sustainStep [60, 61] (RenderConfig.q ⟨10, 480, 480, none, "f"⟩) s st)
        (initState (RenderConfig.bpm ⟨10, 480, 480, none, "f"⟩) [1, 0])).active →
      (1 * RenderConfig.q ⟨10, 480, 480, none, "f"⟩, MidoMsg.noteOff 0 p 0 0) ∈
        (scheduleCoreAux (staccatoB ⟨10, 480, 480, none, "f"⟩)
          (gateFrac ⟨10, 480, 480, none, "f"⟩)
          (RenderConfig.q ⟨10, 480, 480, none, "f"⟩)
          (RenderConfig.bpm ⟨10, 480, 480, none, "f"⟩) [60, 61] [1, 0] 1).events) :=
  C5_sustain_flush ⟨10, 480, 480, none, "f"⟩ [1, 0] [60, 61] 1 rfl
    (by
      intro i j hi hj hij
      have hi2 : i < 2 := hi
      have hj2 : j < 2 := hj
      interval_cases i <;> interval_cases j <;> revert hij <;> decide)
    (by decide) (by decide)
